import Mathlib

/-!
Verification of the zahir procedural-noise library.

Shallow embedding conventions:
* `u64`/`u32`/byte values are `Nat` with explicit `% 2 ^ 64` (resp. `2 ^ 32`,
  `256`) where the Rust machine arithmetic wraps; byte spans are `List Nat`.
* `f64` arithmetic is embedded over `ℚ` (exact arithmetic, the standard
  real-valued reading of the floating-point source); `f64` literals from the
  source become the exact rational value of the corresponding double.
* Code outside `src/` (the `rand_chacha` ChaCha8 stream, the bit pattern of an
  `f64`, the gradient tables of the missing `noise` module file) is kept as an
  abstract parameter or modelled from the spec, as flagged in doc comments.
-/

namespace Zahir

/-- `2 ^ 64`, the `u64` wrap-around modulus. -/
def M64 : Nat := 18446744073709551616

theorem M64_eq : M64 = 2 ^ 64 := by decide

/-- Little-endian serialization of a `u32` into 4 bytes
(`byteorder::LittleEndian::write_u32`). -/
def u32le (x : Nat) : List Nat :=
  [x % 256, x / 2 ^ 8 % 256, x / 2 ^ 16 % 256, x / 2 ^ 24 % 256]

/-- Little-endian serialization of a `u64` into 8 bytes
(`byteorder::LittleEndian::write_u64`). -/
def u64le (x : Nat) : List Nat :=
  [x % 256, x / 2 ^ 8 % 256, x / 2 ^ 16 % 256, x / 2 ^ 24 % 256,
   x / 2 ^ 32 % 256, x / 2 ^ 40 % 256, x / 2 ^ 48 % 256, x / 2 ^ 56 % 256]

/-- `byteorder::LittleEndian::read_u32` at offset `off` of a byte span. -/
def readU32 (bs : List Nat) (off : Nat) : Nat :=
  bs.getD off 0 + bs.getD (off + 1) 0 * 2 ^ 8 +
    bs.getD (off + 2) 0 * 2 ^ 16 + bs.getD (off + 3) 0 * 2 ^ 24

/-- `byteorder::LittleEndian::read_u64` at offset `off` of a byte span. -/
def readU64 (bs : List Nat) (off : Nat) : Nat :=
  readU32 bs off + readU32 bs (off + 4) * 2 ^ 32

/-- The Wyhash instance state: a running seed and four secret constants
(`struct Wyhash` in `src/random/wyhash.rs`). All five fields are `u64`. -/
structure Wyhash where
  seed : Nat
  secret0 : Nat
  secret1 : Nat
  secret2 : Nat
  secret3 : Nat
  deriving DecidableEq

namespace Wyhash

/-- `Wyhash::wymum`: full 128-bit product, each half XORed back into the
corresponding operand. -/
def wymum (x y : Nat) : Nat × Nat :=
  (x ^^^ (x * y % M64), y ^^^ (x * y / M64))

/-- `Wyhash::wymix`: XOR-fold of `wymum`'s two outputs. -/
def wymix (x y : Nat) : Nat :=
  (wymum x y).1 ^^^ (wymum x y).2

/-- `Wyhash::finish`: folds a left/right pair, a running seed and a length tag
through two rounds of `wymum`/`wymix` against two secret constants. -/
def finish (self : Wyhash) (lhs rhs seed len : Nat) : Nat :=
  let p := wymum (lhs ^^^ self.secret1) (rhs ^^^ seed)
  wymix (p.1 ^^^ self.secret0 ^^^ len) (p.2 ^^^ self.secret1)

/-- `Wyhash::hash_1u32`. -/
def hash_1u32 (self : Wyhash) (x : Nat) : Nat :=
  let mix := (x <<< 32) ||| x
  self.finish mix mix self.seed 4

/-- `Wyhash::hash_2u32`. -/
def hash_2u32 (self : Wyhash) (x y : Nat) : Nat :=
  let lhs := (x <<< 32) ||| y
  let rhs := (y <<< 32) ||| x
  self.finish lhs rhs self.seed 8

/-- `Wyhash::hash_3u32`. -/
def hash_3u32 (self : Wyhash) (x y z : Nat) : Nat :=
  let lhs := (x <<< 32) ||| y
  let rhs := (z <<< 32) ||| y
  self.finish lhs rhs self.seed 12

/-- `Wyhash::hash_4u32`. -/
def hash_4u32 (self : Wyhash) (x y z w : Nat) : Nat :=
  let lhs := (x <<< 32) ||| z
  let rhs := (w <<< 32) ||| y
  self.finish lhs rhs self.seed 16

/-- `Wyhash::hash_1u64` (`x.rotate_left(32)` on a `u64` is
`(x <<< 32) % 2^64 ||| x >>> 32`). -/
def hash_1u64 (self : Wyhash) (x : Nat) : Nat :=
  let lhs := ((x <<< 32) % M64) ||| (x >>> 32)
  let rhs := x
  self.finish lhs rhs self.seed 8

/-- `Wyhash::hash_2u64` (`x << 32` wraps on `u64`). -/
def hash_2u64 (self : Wyhash) (x y : Nat) : Nat :=
  let lhs := ((x <<< 32) % M64) ||| (y &&& 4294967295)
  let rhs := (y &&& 18446744069414584320) ||| (x >>> 32)
  self.finish lhs rhs self.seed 16

/-- `Wyhash::hash_3u64`. -/
def hash_3u64 (self : Wyhash) (x y z : Nat) : Nat :=
  let seed := wymix (x ^^^ self.secret1) (y ^^^ self.seed)
  self.finish y z seed 24

/-- `Wyhash::hash_4u64`. -/
def hash_4u64 (self : Wyhash) (x y z w : Nat) : Nat :=
  let seed := wymix (x ^^^ self.secret1) (y ^^^ self.seed)
  self.finish z w seed 32

/-- The `while remaining >= 48` bulk-absorption loop of `Wyhash::hash_bytes`,
with explicit fuel (any fuel of at least `remaining` steps is exact). State is
`(offset, remaining, seed, seed_1, seed_2)`. -/
def bulkLoop (self : Wyhash) (bs : List Nat) :
    Nat → Nat × Nat × Nat × Nat × Nat → Nat × Nat × Nat × Nat × Nat
  | 0, st => st
  | fuel + 1, (offset, remaining, s, s1, s2) =>
    if 48 ≤ remaining then
      bulkLoop self bs fuel
        (offset + 48, remaining - 48,
         wymix (readU64 bs offset ^^^ self.secret1) (readU64 bs (offset + 8) ^^^ s),
         wymix (readU64 bs (offset + 16) ^^^ self.secret2) (readU64 bs (offset + 24) ^^^ s1),
         wymix (readU64 bs (offset + 32) ^^^ self.secret3) (readU64 bs (offset + 40) ^^^ s2))
    else (offset, remaining, s, s1, s2)

/-- The `while remaining > 16` 16-byte-step loop of `Wyhash::hash_bytes`,
with explicit fuel. State is `(offset, remaining, seed)`. -/
def tailLoop (self : Wyhash) (bs : List Nat) :
    Nat → Nat × Nat × Nat → Nat × Nat × Nat
  | 0, st => st
  | fuel + 1, (offset, remaining, s) =>
    if 16 < remaining then
      tailLoop self bs fuel
        (offset + 16, remaining - 16,
         wymix (readU64 bs offset ^^^ self.secret1) (readU64 bs (offset + 8) ^^^ s))
    else (offset, remaining, s)

/-- `Wyhash::hash_bytes`: the variable-length byte-span hasher, with its
length-dependent code paths (0 bytes, 1–3 bytes, 4–16 bytes, > 16 bytes with
optional 48-byte bulk absorption). Fuel for the two inner loops is the span
length, which strictly bounds the number of iterations. -/
def hash_bytes (self : Wyhash) (bs : List Nat) : Nat :=
  let len := bs.length
  if len ≤ 16 then
    if 4 ≤ len then
      let offset_1 := (len >>> 3) <<< 2
      let offset_2 := len - 4
      let offset_3 := offset_2 - offset_1
      let x := readU32 bs 0
      let y := readU32 bs offset_1
      let z := readU32 bs offset_2
      let w := readU32 bs offset_3
      self.finish ((x <<< 32) ||| y) ((z <<< 32) ||| w) self.seed len
    else if 0 < len then
      let x := bs.getD 0 0
      let y := bs.getD (len >>> 1) 0
      let z := bs.getD (len - 1) 0
      self.finish ((x <<< 16) ||| (y <<< 8) ||| z) 0 self.seed len
    else
      self.finish 0 0 self.seed len
  else
    let st :=
      if 48 ≤ len then
        let (offset, remaining, s, s1, s2) :=
          self.bulkLoop bs len (0, len, self.seed, self.seed, self.seed)
        (offset, remaining, s ^^^ s1 ^^^ s2)
      else
        (0, len, self.seed)
    let (offset, remaining, s) := self.tailLoop bs len st
    self.finish (readU64 bs (offset + remaining - 16))
      (readU64 bs (offset + remaining - 8)) s len

end Wyhash

/-! Bit-twiddling toolkit for relating packed words to their byte images. -/

theorem lor_shift_add (k : Nat) : ∀ a b : Nat, b < 2 ^ k → (a <<< k) ||| b = a * 2 ^ k + b := by
  induction k with
  | zero =>
    intro a b h
    interval_cases b
    simp [Nat.shiftLeft_eq]
  | succ n ih =>
    intro a b h
    have hdm : (a <<< (n + 1) ||| b) =
        2 * ((a <<< (n + 1) ||| b) / 2) + (a <<< (n + 1) ||| b) % 2 := by
      omega
    have hdiv : (a <<< (n + 1) ||| b) / 2 = a <<< n ||| b / 2 := by
      rw [Nat.or_div_two]
      congr 1
      rw [Nat.shiftLeft_eq, Nat.shiftLeft_eq, pow_succ, ← Nat.mul_assoc]
      exact Nat.mul_div_cancel _ (by norm_num)
    have hmod : (a <<< (n + 1) ||| b) % 2 = b % 2 := by
      have ha : a <<< (n + 1) % 2 = 0 := by
        rw [Nat.shiftLeft_eq, pow_succ, ← Nat.mul_assoc]
        exact Nat.mul_mod_left _ 2
      rcases Nat.mod_two_eq_zero_or_one b with hb | hb
      · have h1 : ¬ ((a <<< (n + 1) ||| b) % 2 = 1) := by
          rw [Nat.or_mod_two_eq_one]
          omega
        omega
      · rw [hb, Nat.or_mod_two_eq_one.mpr (Or.inr hb)]
    have hb2 : b / 2 < 2 ^ n := by
      rw [pow_succ] at h
      omega
    rw [hdm, hdiv, hmod, ih a (b / 2) hb2]
    rw [pow_succ]
    have : 2 * (a * 2 ^ n + b / 2) = a * (2 ^ n * 2) + 2 * (b / 2) := by ring
    omega

theorem and_high_mask (y : Nat) (hy : y < 2 ^ 64) :
    y &&& 18446744069414584320 = (y >>> 32) <<< 32 := by
  have hm : (18446744069414584320 : Nat) = (2 ^ 32 - 1) <<< 32 := by decide
  rw [hm]
  apply Nat.eq_of_testBit_eq
  intro i
  rw [Nat.testBit_and, Nat.testBit_shiftLeft, Nat.testBit_shiftLeft, Nat.testBit_shiftRight,
    Nat.testBit_two_pow_sub_one]
  by_cases h32 : 32 ≤ i
  · by_cases h64 : i < 64
    · simp [h32, Nat.add_sub_cancel' h32, show i - 32 < 32 by omega]
    · have : y.testBit i = false :=
        Nat.testBit_lt_two_pow
          (lt_of_lt_of_le hy (Nat.pow_le_pow_right (by norm_num) (by omega)))
      simp [this, h32, Nat.add_sub_cancel' h32]
  · simp [h32]

theorem getD_append_skip (l r : List Nat) (k : Nat) :
    (l ++ r).getD (l.length + k) 0 = r.getD k 0 := by
  rw [List.getD_append_right l r 0 (l.length + k) (Nat.le_add_right _ _)]
  simp

/-! Reading serialized words back out of byte spans. -/

theorem u32le_length (x : Nat) : (u32le x).length = 4 := rfl

theorem u64le_length (x : Nat) : (u64le x).length = 8 := rfl

theorem readU32_u32le (x : Nat) (r : List Nat) : readU32 (u32le x ++ r) 0 = x % 2 ^ 32 := by
  simp [readU32, u32le, List.getD]
  omega

theorem readU32_skip4 (x : Nat) (r : List Nat) (k : Nat) :
    readU32 (u32le x ++ r) (4 + k) = readU32 r k := by
  have h0 := getD_append_skip (u32le x) r k
  have h1 := getD_append_skip (u32le x) r (k + 1)
  have h2 := getD_append_skip (u32le x) r (k + 2)
  have h3 := getD_append_skip (u32le x) r (k + 3)
  rw [u32le_length] at h0 h1 h2 h3
  simp only [readU32]
  rw [show 4 + k + 1 = 4 + (k + 1) by omega, show 4 + k + 2 = 4 + (k + 2) by omega,
    show 4 + k + 3 = 4 + (k + 3) by omega, h0, h1, h2, h3]

theorem readU32_u64le_lo (x : Nat) (r : List Nat) :
    readU32 (u64le x ++ r) 0 = x % 2 ^ 32 := by
  simp [readU32, u64le, List.getD]
  omega

theorem readU32_u64le_hi (x : Nat) (r : List Nat) :
    readU32 (u64le x ++ r) 4 = x / 2 ^ 32 % 2 ^ 32 := by
  simp [readU32, u64le, List.getD]
  omega

theorem readU32_skip8 (x : Nat) (r : List Nat) (k : Nat) :
    readU32 (u64le x ++ r) (8 + k) = readU32 r k := by
  have h0 := getD_append_skip (u64le x) r k
  have h1 := getD_append_skip (u64le x) r (k + 1)
  have h2 := getD_append_skip (u64le x) r (k + 2)
  have h3 := getD_append_skip (u64le x) r (k + 3)
  rw [u64le_length] at h0 h1 h2 h3
  simp only [readU32]
  rw [show 8 + k + 1 = 8 + (k + 1) by omega, show 8 + k + 2 = 8 + (k + 2) by omega,
    show 8 + k + 3 = 8 + (k + 3) by omega, h0, h1, h2, h3]

theorem readU64_u64le (x : Nat) (r : List Nat) :
    readU64 (u64le x ++ r) 0 = x % 2 ^ 64 := by
  simp only [readU64, show (0 : Nat) + 4 = 4 from rfl, readU32_u64le_lo, readU32_u64le_hi]
  omega

theorem readU64_skip8 (x : Nat) (r : List Nat) (k : Nat) :
    readU64 (u64le x ++ r) (8 + k) = readU64 r k := by
  simp only [readU64, readU32_skip8, show 8 + k + 4 = 8 + (k + 4) by omega]

end Zahir
namespace Zahir

theorem readU32_u32le_nil (x : Nat) : readU32 (u32le x) 0 = x % 2 ^ 32 := by
  rw [← List.append_nil (u32le x)]
  exact readU32_u32le x []

namespace Wyhash

theorem hash_1u32_eq_bytes (self : Wyhash) (x : Nat) (hx : x < 2 ^ 32) :
    self.hash_1u32 x = self.hash_bytes (u32le x) := by
  simp only [hash_bytes, u32le_length]
  norm_num
  rw [show ((4 : Nat) >>> 3) <<< 2 = 0 from rfl]
  rw [readU32_u32le_nil, Nat.mod_eq_of_lt hx]
  rfl

theorem hash_2u32_eq_bytes (self : Wyhash) (x y : Nat) (hx : x < 2 ^ 32) (hy : y < 2 ^ 32) :
    self.hash_2u32 x y = self.hash_bytes (u32le x ++ u32le y) := by
  simp only [hash_bytes, List.length_append, u32le_length]
  norm_num
  rw [show ((8 : Nat) >>> 3) <<< 2 = 4 from rfl]
  rw [readU32_u32le, show (4 : Nat) = 4 + 0 from rfl, readU32_skip4, readU32_u32le_nil,
    Nat.mod_eq_of_lt hx, Nat.mod_eq_of_lt hy]
  rfl

end Wyhash
end Zahir
namespace Zahir

theorem readU32_u64le_lo_nil (x : Nat) : readU32 (u64le x) 0 = x % 2 ^ 32 := by
  rw [← List.append_nil (u64le x)]
  exact readU32_u64le_lo x []

theorem readU32_u64le_hi_nil (x : Nat) : readU32 (u64le x) 4 = x / 2 ^ 32 % 2 ^ 32 := by
  rw [← List.append_nil (u64le x)]
  exact readU32_u64le_hi x []

theorem readU64_u64le_nil (x : Nat) : readU64 (u64le x) 0 = x % 2 ^ 64 := by
  rw [← List.append_nil (u64le x)]
  exact readU64_u64le x []

namespace Wyhash

theorem tailLoop_stop (self : Wyhash) (bs : List Nat) (fuel offset remaining s : Nat)
    (h : ¬ 16 < remaining) :
    self.tailLoop bs fuel (offset, remaining, s) = (offset, remaining, s) := by
  cases fuel with
  | zero => rfl
  | succ n => simp [tailLoop, h]

theorem tailLoop_step (self : Wyhash) (bs : List Nat) (fuel offset remaining s : Nat)
    (h : 16 < remaining) :
    self.tailLoop bs (fuel + 1) (offset, remaining, s) =
      self.tailLoop bs fuel
        (offset + 16, remaining - 16,
         wymix (readU64 bs offset ^^^ self.secret1) (readU64 bs (offset + 8) ^^^ s)) := by
  simp [tailLoop, h]

theorem readU32_skip4x (x : Nat) (r : List Nat) (k : Nat) (h : 4 ≤ k) :
    readU32 (u32le x ++ r) k = readU32 r (k - 4) := by
  rw [show k = 4 + (k - 4) by omega, readU32_skip4]
  congr 1
  omega

theorem readU32_skip8x (x : Nat) (r : List Nat) (k : Nat) (h : 8 ≤ k) :
    readU32 (u64le x ++ r) k = readU32 r (k - 8) := by
  rw [show k = 8 + (k - 8) by omega, readU32_skip8]
  congr 1
  omega

theorem readU64_skip8x (x : Nat) (r : List Nat) (k : Nat) (h : 8 ≤ k) :
    readU64 (u64le x ++ r) k = readU64 r (k - 8) := by
  rw [show k = 8 + (k - 8) by omega, readU64_skip8]
  congr 1
  omega

theorem hash_3u32_eq_bytes (self : Wyhash) (x y z : Nat)
    (hx : x < 2 ^ 32) (hy : y < 2 ^ 32) (hz : z < 2 ^ 32) :
    self.hash_3u32 x y z = self.hash_bytes (u32le x ++ (u32le y ++ u32le z)) := by
  simp only [hash_bytes, List.length_append, u32le_length]
  norm_num
  rw [show ((12 : Nat) >>> 3) <<< 2 = 4 from rfl]
  simp only [readU32_skip4x, readU32_u32le, readU32_u32le_nil, Nat.reduceSub,
    Nat.reduceLeDiff]
  rw [Nat.mod_eq_of_lt hx, Nat.mod_eq_of_lt hy, Nat.mod_eq_of_lt hz]
  rfl

theorem hash_4u32_eq_bytes (self : Wyhash) (x y z w : Nat)
    (hx : x < 2 ^ 32) (hy : y < 2 ^ 32) (hz : z < 2 ^ 32) (hw : w < 2 ^ 32) :
    self.hash_4u32 x y z w =
      self.hash_bytes (u32le x ++ (u32le y ++ (u32le z ++ u32le w))) := by
  simp only [hash_bytes, List.length_append, u32le_length]
  norm_num
  rw [show ((16 : Nat) >>> 3) <<< 2 = 8 from rfl]
  simp only [readU32_skip4x, readU32_u32le, readU32_u32le_nil, Nat.reduceSub,
    Nat.reduceLeDiff]
  rw [Nat.mod_eq_of_lt hx, Nat.mod_eq_of_lt hy, Nat.mod_eq_of_lt hz, Nat.mod_eq_of_lt hw]
  rfl

end Wyhash
end Zahir
namespace Zahir
namespace Wyhash

theorem hash_1u64_eq_bytes (self : Wyhash) (x : Nat) (hx : x < 2 ^ 64) :
    self.hash_1u64 x = self.hash_bytes (u64le x) := by
  simp only [hash_bytes, u64le_length]
  norm_num
  rw [show ((8 : Nat) >>> 3) <<< 2 = 4 from rfl]
  rw [readU32_u64le_lo_nil, readU32_u64le_hi_nil]
  have e1 : (x <<< 32) % M64 = (x % 2 ^ 32) <<< 32 := by
    rw [M64_eq, Nat.shiftLeft_eq, Nat.shiftLeft_eq]
    omega
  have e2 : x >>> 32 = x / 2 ^ 32 := Nat.shiftRight_eq_div_pow x 32
  have e3 : x / 2 ^ 32 % 2 ^ 32 = x / 2 ^ 32 := Nat.mod_eq_of_lt (by omega)
  have e4 : ((x / 2 ^ 32) <<< 32) ||| (x % 2 ^ 32) = x := by
    rw [lor_shift_add 32 _ _ (Nat.mod_lt _ (by norm_num))]
    omega
  simp only [hash_1u64, e1, e2, e3, e4]

theorem hash_2u64_eq_bytes (self : Wyhash) (x y : Nat) (hx : x < 2 ^ 64) (hy : y < 2 ^ 64) :
    self.hash_2u64 x y = self.hash_bytes (u64le x ++ u64le y) := by
  simp only [hash_bytes, List.length_append, u64le_length]
  norm_num
  rw [show ((16 : Nat) >>> 3) <<< 2 = 8 from rfl]
  simp only [readU32_skip8x, Nat.reduceSub, Nat.reduceLeDiff]
  rw [readU32_u64le_lo, readU32_u64le_hi, readU32_u64le_lo_nil, readU32_u64le_hi_nil]
  have e1 : (x <<< 32) % M64 = (x % 2 ^ 32) <<< 32 := by
    rw [M64_eq, Nat.shiftLeft_eq, Nat.shiftLeft_eq]
    omega
  have e2 : y &&& 4294967295 = y % 2 ^ 32 := by
    rw [show (4294967295 : Nat) = 2 ^ 32 - 1 from rfl]
    exact Nat.and_pow_two_sub_one_eq_mod y 32
  have e3 : y &&& 18446744069414584320 = (y / 2 ^ 32 % 2 ^ 32) <<< 32 := by
    rw [and_high_mask y hy, Nat.shiftRight_eq_div_pow,
      Nat.mod_eq_of_lt (show y / 2 ^ 32 < 2 ^ 32 by omega)]
  have e4 : x >>> 32 = x / 2 ^ 32 % 2 ^ 32 := by
    rw [Nat.shiftRight_eq_div_pow, Nat.mod_eq_of_lt (show x / 2 ^ 32 < 2 ^ 32 by omega)]
  simp only [hash_2u64, e1, e2, e3, e4]

theorem hash_3u64_eq_bytes (self : Wyhash) (x y z : Nat)
    (hx : x < 2 ^ 64) (hy : y < 2 ^ 64) (hz : z < 2 ^ 64) :
    self.hash_3u64 x y z = self.hash_bytes (u64le x ++ (u64le y ++ u64le z)) := by
  simp only [hash_bytes, List.length_append, u64le_length]
  norm_num
  rw [show (24 : Nat) = 23 + 1 from rfl, tailLoop_step _ _ _ _ _ _ (by norm_num),
    tailLoop_stop _ _ _ _ _ _ (by norm_num)]
  norm_num
  simp only [readU64_skip8x, Nat.reduceSub, Nat.reduceLeDiff]
  rw [readU64_u64le, readU64_u64le, readU64_u64le_nil]
  rw [Nat.mod_eq_of_lt hx, Nat.mod_eq_of_lt hy, Nat.mod_eq_of_lt hz]
  rfl

theorem hash_4u64_eq_bytes (self : Wyhash) (x y z w : Nat)
    (hx : x < 2 ^ 64) (hy : y < 2 ^ 64) (hz : z < 2 ^ 64) (hw : w < 2 ^ 64) :
    self.hash_4u64 x y z w =
      self.hash_bytes (u64le x ++ (u64le y ++ (u64le z ++ u64le w))) := by
  simp only [hash_bytes, List.length_append, u64le_length]
  norm_num
  rw [show (32 : Nat) = 31 + 1 from rfl, tailLoop_step _ _ _ _ _ _ (by norm_num),
    tailLoop_stop _ _ _ _ _ _ (by norm_num)]
  norm_num
  simp only [readU64_skip8x, Nat.reduceSub, Nat.reduceLeDiff]
  rw [readU64_u64le, readU64_u64le, readU64_u64le, readU64_u64le_nil]
  rw [Nat.mod_eq_of_lt hx, Nat.mod_eq_of_lt hy, Nat.mod_eq_of_lt hz, Nat.mod_eq_of_lt hw]
  rfl

end Wyhash
end Zahir

namespace Zahir

/-- The Wyhash instance built by the repository's unit tests
(`build_wyhash(0)` in `src/random/wyhash.rs`). -/
def testWyhash : Wyhash :=
  { seed := 0 ^^^ Wyhash.wymix (0 ^^^ 0x2D358DCCAA6C78A5) 0x8BB84B93962EACC9
    secret0 := 0x2D358DCCAA6C78A5
    secret1 := 0x8BB84B93962EACC9
    secret2 := 0x4B33A62ED433D4A3
    secret3 := 0x4D5A2DA51DE1AA47 }

/-- C1: For every Wyhash instance and all in-range argument values, each
fixed-arity integer hasher (`hash_1u32` … `hash_4u64`) returns the same 64-bit
result as `hash_bytes` applied to the little-endian byte serialization of its
arguments in order (4 bytes per `u32` argument, 8 bytes per `u64` argument). -/
theorem C1_fixed_arity_hashers_match_hash_bytes (self : Wyhash)
    (a b c d x y z w : Nat)
    (ha : a < 2 ^ 32) (hb : b < 2 ^ 32) (hc : c < 2 ^ 32) (hd : d < 2 ^ 32)
    (hx : x < 2 ^ 64) (hy : y < 2 ^ 64) (hz : z < 2 ^ 64) (hw : w < 2 ^ 64) :
    self.hash_1u32 a = self.hash_bytes (u32le a) ∧
    self.hash_2u32 a b = self.hash_bytes (u32le a ++ u32le b) ∧
    self.hash_3u32 a b c = self.hash_bytes (u32le a ++ (u32le b ++ u32le c)) ∧
    self.hash_4u32 a b c d =
      self.hash_bytes (u32le a ++ (u32le b ++ (u32le c ++ u32le d))) ∧
    self.hash_1u64 x = self.hash_bytes (u64le x) ∧
    self.hash_2u64 x y = self.hash_bytes (u64le x ++ u64le y) ∧
    self.hash_3u64 x y z = self.hash_bytes (u64le x ++ (u64le y ++ u64le z)) ∧
    self.hash_4u64 x y z w =
      self.hash_bytes (u64le x ++ (u64le y ++ (u64le z ++ u64le w))) :=
  ⟨Wyhash.hash_1u32_eq_bytes self a ha,
   Wyhash.hash_2u32_eq_bytes self a b ha hb,
   Wyhash.hash_3u32_eq_bytes self a b c ha hb hc,
   Wyhash.hash_4u32_eq_bytes self a b c d ha hb hc hd,
   Wyhash.hash_1u64_eq_bytes self x hx,
   Wyhash.hash_2u64_eq_bytes self x y hx hy,
   Wyhash.hash_3u64_eq_bytes self x y z hx hy hz,
   Wyhash.hash_4u64_eq_bytes self x y z w hx hy hz hw⟩

/-- Witness for C1 at the unit tests' concrete inputs. -/
theorem C1_fixed_arity_hashers_match_hash_bytes_witness :
    testWyhash.hash_1u32 0x125B9188 = testWyhash.hash_bytes (u32le 0x125B9188) ∧
    testWyhash.hash_2u32 0x125B9188 0x7A6A7E34 =
      testWyhash.hash_bytes (u32le 0x125B9188 ++ u32le 0x7A6A7E34) ∧
    testWyhash.hash_3u32 0x125B9188 0x7A6A7E34 0x91A79E7E =
      testWyhash.hash_bytes (u32le 0x125B9188 ++ (u32le 0x7A6A7E34 ++ u32le 0x91A79E7E)) ∧
    testWyhash.hash_4u32 0x125B9188 0x7A6A7E34 0x91A79E7E 0xFAE79714 =
      testWyhash.hash_bytes
        (u32le 0x125B9188 ++ (u32le 0x7A6A7E34 ++ (u32le 0x91A79E7E ++ u32le 0xFAE79714))) ∧
    testWyhash.hash_1u64 0x7A6A7E34125B9188 =
      testWyhash.hash_bytes (u64le 0x7A6A7E34125B9188) ∧
    testWyhash.hash_2u64 0x7A6A7E34125B9188 0xFAE7971491A79E7E =
      testWyhash.hash_bytes (u64le 0x7A6A7E34125B9188 ++ u64le 0xFAE7971491A79E7E) ∧
    testWyhash.hash_3u64 0x7A6A7E34125B9188 0xFAE7971491A79E7E 0x8DD9BB8734213A60 =
      testWyhash.hash_bytes
        (u64le 0x7A6A7E34125B9188 ++ (u64le 0xFAE7971491A79E7E ++ u64le 0x8DD9BB8734213A60)) ∧
    testWyhash.hash_4u64 0x7A6A7E34125B9188 0xFAE7971491A79E7E 0x8DD9BB8734213A60
        0xE30DCD7F08BF2369 =
      testWyhash.hash_bytes
        (u64le 0x7A6A7E34125B9188 ++ (u64le 0xFAE7971491A79E7E ++
          (u64le 0x8DD9BB8734213A60 ++ u64le 0xE30DCD7F08BF2369))) :=
  C1_fixed_arity_hashers_match_hash_bytes testWyhash
    0x125B9188 0x7A6A7E34 0x91A79E7E 0xFAE79714
    0x7A6A7E34125B9188 0xFAE7971491A79E7E 0x8DD9BB8734213A60 0xE30DCD7F08BF2369
    (by decide) (by decide) (by decide) (by decide)
    (by decide) (by decide) (by decide) (by decide)

end Zahir

namespace Zahir

/-! ## Seed and the base-58 codec (`src/random/seed.rs`) -/

/-- `enum ParseSeedError`: the three parse failure modes of `Seed::from_base58`. -/
inductive ParseSeedError where
  | InvalidLength (length : Nat)
  | InvalidCharacter (character : Char) (index : Nat)
  | Overflow
  deriving DecidableEq

/-- Four little-endian 64-bit limbs of a 256-bit value, `x` least significant
(the working state of both codec directions). -/
structure Limbs where
  x : Nat
  y : Nat
  z : Nat
  w : Nat
  deriving DecidableEq

namespace Limbs

/-- The 256-bit value the four limbs denote. -/
def toNat (l : Limbs) : Nat :=
  l.x + l.y * 2 ^ 64 + l.z * 2 ^ 128 + l.w * 2 ^ 192

/-- Every limb is a `u64` value. -/
def WF (l : Limbs) : Prop :=
  l.x < 2 ^ 64 ∧ l.y < 2 ^ 64 ∧ l.z < 2 ^ 64 ∧ l.w < 2 ^ 64

instance (l : Limbs) : Decidable l.WF := by
  unfold WF
  infer_instance

end Limbs

/-- `struct Seed`: 32 fixed bytes. -/
structure Seed where
  bytes : List Nat
  deriving DecidableEq

/-- A seed holds exactly 32 bytes, each below 256. -/
def Seed.WF (s : Seed) : Prop :=
  s.bytes.length = 32 ∧ ∀ b ∈ s.bytes, b < 256

/-- `digit_to_char` inside `Seed::to_base58`; the source panics on a digit
above 57, which is unreachable, so that branch maps to an arbitrary char. -/
def digit_to_char (digit : Nat) : Char :=
  let ord :=
    if digit ≤ 8 then digit + 49
    else if digit ≤ 16 then digit + 56
    else if digit ≤ 21 then digit + 57
    else if digit ≤ 32 then digit + 58
    else if digit ≤ 43 then digit + 64
    else if digit ≤ 57 then digit + 65
    else 63
  Char.ofNat ord

/-- One round of the long-division loop in `Seed::to_base58`: divide the
256-bit limb state by 58, returning the quotient limbs and the remainder. -/
def divStep (st : Limbs) : Limbs × Nat :=
  let m1 := st.w
  let mw := m1 / 58
  let r1 := m1 % 58
  let m2 := st.z + r1 * 2 ^ 64
  let mz := m2 / 58
  let r2 := m2 % 58
  let m3 := st.y + r2 * 2 ^ 64
  let my := m3 / 58
  let r3 := m3 % 58
  let m4 := st.x + r3 * 2 ^ 64
  let mx := m4 / 58
  let r4 := m4 % 58
  (⟨mx, my, mz, mw⟩, r4)

/-- The `loop { … }` of `Seed::to_base58`, pushing base-58 digits (least
significant first) until the remaining value is a single digit. Fuel bounds
the iteration count; 64 units always suffice for well-formed limbs. -/
def encodeLoop : Nat → Limbs → List Nat → List Nat
  | 0, _, buffer => buffer
  | fuel + 1, st, buffer =>
    let q := (divStep st).1
    let rem := (divStep st).2
    let buffer := buffer ++ [rem]
    if q.x < 58 ∧ q.y = 0 ∧ q.z = 0 ∧ q.w = 0 then
      if 0 < q.x then buffer ++ [q.x] else buffer
    else encodeLoop fuel q buffer

/-- `Seed::to_base58`: long-divide the four limbs by 58 collecting digits,
left-pad with the zero digit `'1'` to 44 characters, most significant first. -/
def Seed.to_base58 (s : Seed) : List Char :=
  let st : Limbs :=
    ⟨readU64 s.bytes 0, readU64 s.bytes 8, readU64 s.bytes 16, readU64 s.bytes 24⟩
  let buffer := encodeLoop 64 st []
  let padded := buffer ++ List.replicate (44 - buffer.length) 0
  (padded.map digit_to_char).reverse

/-- The `match char_ord { … }` alphabet table of `Seed::from_base58`:
`none` on a character outside the base-58 alphabet. -/
def char_value (c : Char) : Option Nat :=
  let o := c.toNat
  if 49 ≤ o ∧ o ≤ 57 then some (o - 49)
  else if 65 ≤ o ∧ o ≤ 72 then some (o - 56)
  else if 74 ≤ o ∧ o ≤ 78 then some (o - 57)
  else if 80 ≤ o ∧ o ≤ 90 then some (o - 58)
  else if 97 ≤ o ∧ o ≤ 107 then some (o - 64)
  else if 109 ≤ o ∧ o ≤ 122 then some (o - 65)
  else none

/-- `mul_u256` in `src/random/seed.rs`: multiply the limb state by a word,
failing with `Overflow` when a carry leaves the top limb. -/
def mul_u256 (multiplicand : Nat) (st : Limbs) : Except ParseSeedError Limbs :=
  let m1 := st.x * multiplicand
  let x := m1 % 2 ^ 64
  let c1 := m1 / 2 ^ 64
  let m2 := st.y * multiplicand + c1
  let y := m2 % 2 ^ 64
  let c2 := m2 / 2 ^ 64
  let m3 := st.z * multiplicand + c2
  let z := m3 % 2 ^ 64
  let c3 := m3 / 2 ^ 64
  let m4 := st.w * multiplicand + c3
  let w := m4 % 2 ^ 64
  let c4 := m4 / 2 ^ 64
  if 0 < c4 then .error .Overflow else .ok ⟨x, y, z, w⟩

/-- The carry-propagated 256-bit addition inlined in `Seed::from_base58`'s
loop body, failing with `Overflow` when a carry leaves the top limb. -/
def add_u256 (s i : Limbs) : Except ParseSeedError Limbs :=
  let m1 := s.x + i.x
  let mx := m1 % 2 ^ 64
  let c1 := m1 / 2 ^ 64
  let m2 := s.y + i.y + c1
  let my := m2 % 2 ^ 64
  let c2 := m2 / 2 ^ 64
  let m3 := s.z + i.z + c2
  let mz := m3 % 2 ^ 64
  let c3 := m3 / 2 ^ 64
  let m4 := s.w + i.w + c3
  let mw := m4 % 2 ^ 64
  let c4 := m4 / 2 ^ 64
  if 0 < c4 then .error .Overflow else .ok ⟨mx, my, mz, mw⟩

/-- The `for (idx, c) in s.chars().rev().enumerate()` loop of
`Seed::from_base58`, processing least-significant characters first with
accumulator `s` and power-of-58 state `b`. -/
def decodeLoop : List (Nat × Char) → Limbs → Limbs → Except ParseSeedError Limbs
  | [], acc, _ => .ok acc
  | (idx, c) :: rest, acc, b =>
    match char_value c with
    | none => .error (.InvalidCharacter c (44 - idx - 1))
    | some char_val =>
      if idx = 0 then
        decodeLoop rest ⟨char_val, 0, 0, 0⟩ b
      else
        match (if idx ≠ 1 then mul_u256 58 b else .ok b) with
        | .error e => .error e
        | .ok b =>
          match mul_u256 char_val b with
          | .error e => .error e
          | .ok i =>
            match add_u256 acc i with
            | .error e => .error e
            | .ok acc => decodeLoop rest acc b

/-- The UTF-8 byte length of a character list (`str::len` in the source). -/
def strByteLen (s : List Char) : Nat :=
  (s.map Char.utf8Size).sum

/-- `Seed::from_base58`: length check on the UTF-8 byte length, then the
digit-accumulation loop over the reversed characters, then the little-endian
limb write-back. -/
def Seed.from_base58 (s : List Char) : Except ParseSeedError Seed :=
  if strByteLen s ≠ 44 then
    .error (.InvalidLength (strByteLen s))
  else
    match decodeLoop s.reverse.enum ⟨0, 0, 0, 0⟩ ⟨58, 0, 0, 0⟩ with
    | .error e => .error e
    | .ok l => .ok ⟨u64le l.x ++ u64le l.y ++ u64le l.z ++ u64le l.w⟩

end Zahir

namespace Zahir

instance {ε α : Type} [DecidableEq ε] [DecidableEq α] : DecidableEq (Except ε α)
  | .error a, .error b =>
    if h : a = b then .isTrue (by rw [h]) else .isFalse (by simp [h])
  | .error _, .ok _ => .isFalse (by simp)
  | .ok _, .error _ => .isFalse (by simp)
  | .ok a, .ok b =>
    if h : a = b then .isTrue (by rw [h]) else .isFalse (by simp [h])

end Zahir

namespace Zahir

theorem divStep_correct (st : Limbs) (h : st.WF) :
    (divStep st).1.toNat = st.toNat / 58 ∧ (divStep st).1.WF ∧
      (divStep st).2 = st.toNat % 58 := by
  obtain ⟨hx, hy, hz, hw⟩ := h
  simp only [divStep, Limbs.toNat, Limbs.WF]
  omega

/-- The digit string (least significant first) that `Seed::to_base58`'s loop
emits for a 256-bit value: the base-58 expansion, with a single zero digit
when the value is zero. -/
def theDigits (N : Nat) : List Nat :=
  if N = 0 then [0] else Nat.digits 58 N

theorem limbs_lt_iff (q : Limbs) (h : q.WF) :
    (q.x < 58 ∧ q.y = 0 ∧ q.z = 0 ∧ q.w = 0) ↔ q.toNat < 58 := by
  obtain ⟨hx, hy, hz, hw⟩ := h
  simp only [Limbs.toNat]
  constructor
  · rintro ⟨h1, h2, h3, h4⟩
    simp [h2, h3, h4]
    omega
  · intro h1
    refine ⟨by omega, by nlinarith, by nlinarith, by nlinarith⟩

theorem limbs_small_x (q : Limbs) (h : q.WF) (h58 : q.toNat < 58) : q.x = q.toNat := by
  obtain ⟨hx, hy, hz, hw⟩ := h
  simp only [Limbs.toNat] at h58 ⊢
  omega

theorem encodeLoop_succ (fuel : Nat) (st : Limbs) (buffer : List Nat) :
    encodeLoop (fuel + 1) st buffer =
      if (divStep st).1.x < 58 ∧ (divStep st).1.y = 0 ∧ (divStep st).1.z = 0 ∧
          (divStep st).1.w = 0 then
        if 0 < (divStep st).1.x then buffer ++ [(divStep st).2] ++ [(divStep st).1.x]
        else buffer ++ [(divStep st).2]
      else encodeLoop fuel (divStep st).1 (buffer ++ [(divStep st).2]) := rfl

theorem encodeLoop_small (fuel : Nat) (st : Limbs) (buffer : List Nat)
    (hwf : st.WF) (hsm : st.toNat / 58 < 58) :
    encodeLoop (fuel + 1) st buffer = buffer ++ theDigits st.toNat := by
  obtain ⟨hq, hqwf, hr⟩ := divStep_correct st hwf
  have hq58 : (divStep st).1.toNat < 58 := by
    rw [hq]
    exact hsm
  have hcond := (limbs_lt_iff (divStep st).1 hqwf).mpr hq58
  rw [encodeLoop_succ, if_pos hcond]
  have hqx : (divStep st).1.x = st.toNat / 58 := by
    rw [limbs_small_x (divStep st).1 hqwf hq58, hq]
  rw [hr, hqx]
  by_cases h0 : 0 < st.toNat / 58
  · rw [if_pos h0]
    have hN : ¬ st.toNat = 0 := by omega
    rw [theDigits, if_neg hN, Nat.digits_def' (by norm_num : (1:ℕ) < 58) (by omega),
      Nat.digits_def' (by norm_num : (1:ℕ) < 58) h0]
    have h58 : st.toNat / 58 / 58 = 0 := by omega
    have hmod : st.toNat / 58 % 58 = st.toNat / 58 := by omega
    rw [h58, hmod]
    simp
  · rw [if_neg h0]
    rcases Nat.eq_zero_or_pos st.toNat with hz | hz
    · rw [hz, theDigits]
      simp
    · rw [theDigits, if_neg (by omega), Nat.digits_def' (by norm_num : (1:ℕ) < 58) hz]
      have h58 : st.toNat / 58 = 0 := by omega
      rw [h58]
      simp

theorem encodeLoop_eq (fuel : Nat) : ∀ st buffer, st.WF → st.toNat < 58 ^ (fuel + 1) →
    encodeLoop (fuel + 1) st buffer = buffer ++ theDigits st.toNat := by
  induction fuel with
  | zero =>
    intro st buffer hwf hlt
    have hsm : st.toNat / 58 < 58 := by
      have : st.toNat < 58 := by simpa using hlt
      omega
    exact encodeLoop_small 0 st buffer hwf hsm
  | succ f ih =>
    intro st buffer hwf hlt
    by_cases hsm : st.toNat / 58 < 58
    · exact encodeLoop_small (f + 1) st buffer hwf hsm
    · obtain ⟨hq, hqwf, hr⟩ := divStep_correct st hwf
      have hcond : ¬ ((divStep st).1.x < 58 ∧ (divStep st).1.y = 0 ∧
          (divStep st).1.z = 0 ∧ (divStep st).1.w = 0) := by
        rw [limbs_lt_iff (divStep st).1 hqwf, hq]
        omega
      rw [encodeLoop_succ, if_neg hcond]
      rw [hr]
      have hqlt : (divStep st).1.toNat < 58 ^ (f + 1) := by
        rw [hq]
        have hp : st.toNat < 58 ^ (f + 2) := hlt
        rw [pow_succ] at hp
        omega
      rw [ih (divStep st).1 (buffer ++ [st.toNat % 58]) hqwf hqlt, hq]
      have hN : ¬ st.toNat = 0 := by
        intro h
        rw [h] at hsm
        omega
      rw [show theDigits st.toNat = st.toNat % 58 :: Nat.digits 58 (st.toNat / 58) by
        rw [theDigits, if_neg hN]
        exact Nat.digits_def' (by norm_num : (1:ℕ) < 58) (by omega)]
      rw [show theDigits (st.toNat / 58) = Nat.digits 58 (st.toNat / 58) by
        rw [theDigits, if_neg (by omega)]]
      simp

theorem theDigits_lt (N : Nat) : ∀ d ∈ theDigits N, d < 58 := by
  intro d hd
  rw [theDigits] at hd
  by_cases h : N = 0
  · rw [if_pos h] at hd
    simp at hd
    omega
  · rw [if_neg h] at hd
    exact Nat.digits_lt_base (by norm_num) hd

theorem theDigits_len_le (N : Nat) (h : N < 58 ^ 44) : (theDigits N).length ≤ 44 := by
  rw [theDigits]
  by_cases h0 : N = 0
  · rw [if_pos h0]
    norm_num
  · rw [if_neg h0]
    rw [Nat.digits_len 58 N (by norm_num) h0]
    have := Nat.log_lt_of_lt_pow h0 h
    omega

theorem theDigits_ofDigits (N : Nat) : Nat.ofDigits 58 (theDigits N) = N := by
  rw [theDigits]
  by_cases h0 : N = 0
  · rw [if_pos h0, h0]
    simp [Nat.ofDigits]
  · rw [if_neg h0]
    exact Nat.ofDigits_digits 58 N

theorem getD_lt_256 (bs : List Nat) (h : ∀ b ∈ bs, b < 256) (i : Nat) :
    bs.getD i 0 < 256 := by
  rcases Nat.lt_or_ge i bs.length with h' | h'
  · rw [List.getD_eq_getElem bs 0 h']
    exact h _ (List.getElem_mem h')
  · rw [List.getD_eq_default bs 0 h']
    norm_num

theorem readU64_lt (bs : List Nat) (h : ∀ b ∈ bs, b < 256) (k : Nat) :
    readU64 bs k < 2 ^ 64 := by
  simp only [readU64, readU32]
  have h0 := getD_lt_256 bs h k
  have h1 := getD_lt_256 bs h (k + 1)
  have h2 := getD_lt_256 bs h (k + 2)
  have h3 := getD_lt_256 bs h (k + 3)
  have h4 := getD_lt_256 bs h (k + 4)
  have h5 := getD_lt_256 bs h (k + 4 + 1)
  have h6 := getD_lt_256 bs h (k + 4 + 2)
  have h7 := getD_lt_256 bs h (k + 4 + 3)
  omega

theorem mul_u256_spec (m : Nat) (st : Limbs) (h : st.WF) :
    (st.toNat * m < 2 ^ 256 →
      ∃ q, mul_u256 m st = .ok q ∧ q.WF ∧ q.toNat = st.toNat * m) ∧
    (2 ^ 256 ≤ st.toNat * m → mul_u256 m st = .error .Overflow) := by
  obtain ⟨hx, hy, hz, hw⟩ := h
  have hexp : st.toNat * m =
      st.x * m + st.y * m * 2 ^ 64 + st.z * m * 2 ^ 128 + st.w * m * 2 ^ 192 := by
    simp only [Limbs.toNat]
    ring
  constructor
  · intro hlt
    rw [hexp] at hlt
    simp only [mul_u256]
    split
    · rename_i hc
      exfalso
      omega
    · rename_i hc
      refine ⟨_, rfl, ?_, ?_⟩
      · simp only [Limbs.WF]
        omega
      · rw [hexp]
        simp only [Limbs.toNat]
        omega
  · intro hge
    rw [hexp] at hge
    simp only [mul_u256]
    split
    · rfl
    · rename_i hc
      exfalso
      omega

theorem add_u256_spec (s i : Limbs) (hs : s.WF) (hi : i.WF) :
    (s.toNat + i.toNat < 2 ^ 256 →
      ∃ q, add_u256 s i = .ok q ∧ q.WF ∧ q.toNat = s.toNat + i.toNat) ∧
    (2 ^ 256 ≤ s.toNat + i.toNat → add_u256 s i = .error .Overflow) := by
  obtain ⟨hx, hy, hz, hw⟩ := hs
  obtain ⟨gx, gy, gz, gw⟩ := hi
  simp only [Limbs.toNat, add_u256]
  constructor
  · intro hlt
    split
    · rename_i hc
      exfalso
      omega
    · rename_i hc
      refine ⟨_, rfl, ?_, ?_⟩
      · simp only [Limbs.WF]
        omega
      · simp only [Limbs.toNat]
        omega
  · intro hge
    split
    · rfl
    · rename_i hc
      exfalso
      omega

theorem char_value_le (c : Char) (v : Nat) (h : char_value c = some v) : v ≤ 57 := by
  simp only [char_value] at h
  split_ifs at h <;> simp at h <;> omega

theorem pow58_lt (k : Nat) (h : k ≤ 43) : 58 ^ k < 2 ^ 256 := by
  calc 58 ^ k ≤ 58 ^ 43 := Nat.pow_le_pow_right (by norm_num) h
  _ < 2 ^ 256 := by norm_num

theorem decodeLoop_valid :
    ∀ (cs : List Char) (ds : List Nat) (k : Nat) (acc B : Limbs),
    2 ≤ k → k + cs.length = 44 →
    acc.WF → B.WF → B.toNat = 58 ^ (k - 1) →
    acc.toNat < 2 ^ 256 → acc.toNat ≤ 58 ^ k - 1 →
    cs.map char_value = ds.map some →
    (acc.toNat + 58 ^ k * Nat.ofDigits 58 ds < 2 ^ 256 →
      ∃ L, decodeLoop (List.enumFrom k cs) acc B = .ok L ∧ L.WF ∧
        L.toNat = acc.toNat + 58 ^ k * Nat.ofDigits 58 ds) ∧
    (2 ^ 256 ≤ acc.toNat + 58 ^ k * Nat.ofDigits 58 ds →
      decodeLoop (List.enumFrom k cs) acc B = .error .Overflow) := by
  intro cs
  induction cs with
  | nil =>
    intro ds k acc B _ _ haccwf _ _ hacclt _ hmap
    have hds : ds = [] := by
      cases ds with
      | nil => rfl
      | cons d ds => simp at hmap
    subst hds
    simp only [Nat.ofDigits_nil, List.enumFrom_nil, decodeLoop, Nat.mul_zero, Nat.add_zero]
    constructor
    · intro _
      exact ⟨acc, rfl, haccwf, rfl⟩
    · intro hge
      omega
  | cons c cs' ih =>
    intro ds k acc B hk2 hklen haccwf hBwf hBval hacclt haccbound hmap
    cases ds with
    | nil => simp at hmap
    | cons d ds' =>
      simp only [List.map_cons, List.cons.injEq] at hmap
      obtain ⟨hcv, hmap'⟩ := hmap
      have hd57 : d ≤ 57 := char_value_le c d hcv
      have hk43 : k ≤ 43 := by
        simp only [List.length_cons] at hklen
        omega
      -- the b ← 58 * b update
      have hbtot : B.toNat * 58 = 58 ^ k := by
        rw [hBval, ← pow_succ]
        congr 1
        omega
      have hb58lt : B.toNat * 58 < 2 ^ 256 := by
        rw [hbtot]
        exact pow58_lt k hk43
      obtain ⟨b', hb'eq, hb'wf, hb'val⟩ := (mul_u256_spec 58 B hBwf).1 hb58lt
      rw [hbtot] at hb'val
      -- digit expansion of the remaining total
      have hofd : Nat.ofDigits 58 (d :: ds') = d + 58 * Nat.ofDigits 58 ds' :=
        Nat.ofDigits_cons
      have htot : acc.toNat + 58 ^ k * Nat.ofDigits 58 (d :: ds') =
          acc.toNat + 58 ^ k * d + 58 ^ (k + 1) * Nat.ofDigits 58 ds' := by
        rw [hofd, pow_succ]
        ring
      -- unfold one loop step
      have hstep : decodeLoop (List.enumFrom k (c :: cs')) acc B =
          match mul_u256 d b' with
          | .error e => .error e
          | .ok i =>
            match add_u256 acc i with
            | .error e => .error e
            | .ok acc' => decodeLoop (List.enumFrom (k + 1) cs') acc' b' := by
        rw [List.enumFrom_cons]
        simp only [decodeLoop, hcv]
        rw [if_neg (by omega : ¬ k = 0), if_pos (by omega : k ≠ 1), hb'eq]
      constructor
      · intro hlt
        rw [htot] at hlt
        have hilt : b'.toNat * d < 2 ^ 256 := by
          rw [hb'val]
          omega
        obtain ⟨i, hieq, hiwf, hival⟩ := (mul_u256_spec d b' hb'wf).1 hilt
        rw [hb'val] at hival
        have haddlt : acc.toNat + i.toNat < 2 ^ 256 := by
          rw [hival]
          omega
        obtain ⟨acc', haeq, hawf, haval⟩ := (add_u256_spec acc i haccwf hiwf).1 haddlt
        have hacc'lt : acc'.toNat < 2 ^ 256 := by omega
        have hacc'bound : acc'.toNat ≤ 58 ^ (k + 1) - 1 := by
          rw [haval, hival]
          have h1 : 58 ^ (k + 1) = 58 ^ k * 58 := pow_succ 58 k
          have hpd : 58 ^ k * d ≤ 58 ^ k * 57 := Nat.mul_le_mul_left _ hd57
          have hp : 1 ≤ 58 ^ k := Nat.one_le_pow _ _ (by norm_num)
          omega
        obtain ⟨L, hL, hLwf, hLval⟩ :=
          (ih ds' (k + 1) acc' b' (by omega) (by simp only [List.length_cons] at hklen; omega)
            hawf hb'wf (by simpa using hb'val) hacc'lt hacc'bound hmap').1
          (by rw [haval, hival]; omega)
        refine ⟨L, ?_, hLwf, ?_⟩
        · rw [hstep]
          simp only [hieq, haeq]
          exact hL
        · rw [hLval, haval, hival, htot]
      · intro hge
        rw [htot] at hge
        by_cases hi256 : 2 ^ 256 ≤ b'.toNat * d
        · rw [hstep]
          simp only [(mul_u256_spec d b' hb'wf).2 hi256]
        · push_neg at hi256
          obtain ⟨i, hieq, hiwf, hival⟩ := (mul_u256_spec d b' hb'wf).1 hi256
          rw [hb'val] at hival
          by_cases ha256 : 2 ^ 256 ≤ acc.toNat + i.toNat
          · rw [hstep]
            simp only [hieq, (add_u256_spec acc i haccwf hiwf).2 ha256]
          · push_neg at ha256
            obtain ⟨acc', haeq, hawf, haval⟩ := (add_u256_spec acc i haccwf hiwf).1 ha256
            have hacc'bound : acc'.toNat ≤ 58 ^ (k + 1) - 1 := by
              rw [haval, hival]
              have h1 : 58 ^ (k + 1) = 58 ^ k * 58 := pow_succ 58 k
              have hpd : 58 ^ k * d ≤ 58 ^ k * 57 := Nat.mul_le_mul_left _ hd57
              have hp : 1 ≤ 58 ^ k := Nat.one_le_pow _ _ (by norm_num)
              omega
            have herr := (ih ds' (k + 1) acc' b' (by omega)
              (by simp only [List.length_cons] at hklen; omega)
              hawf hb'wf (by simpa using hb'val) (by omega) hacc'bound hmap').2
              (by rw [haval, hival]; omega)
            rw [hstep]
            simp only [hieq, haeq]
            exact herr

theorem decodeLoop_invalid :
    ∀ (pre : List Char) (ds : List Nat) (c : Char) (rest : List Char) (k : Nat) (acc B : Limbs),
    2 ≤ k → k + pre.length + 1 + rest.length = 44 →
    acc.WF → B.WF → B.toNat = 58 ^ (k - 1) → acc.toNat ≤ 58 ^ k - 1 →
    pre.map char_value = ds.map some →
    char_value c = none →
    decodeLoop (List.enumFrom k (pre ++ c :: rest)) acc B =
      .error (.InvalidCharacter c (44 - (k + pre.length) - 1)) := by
  intro pre
  induction pre with
  | nil =>
    intro ds c rest k acc B hk2 hklen _ _ _ _ _ hcv
    rw [List.nil_append, List.enumFrom_cons]
    simp only [decodeLoop, hcv, List.length_nil, Nat.add_zero]
  | cons p pre' ih =>
    intro ds c rest k acc B hk2 hklen haccwf hBwf hBval haccbound hmap hcv
    cases ds with
    | nil => simp at hmap
    | cons d ds' =>
      simp only [List.map_cons, List.cons.injEq] at hmap
      obtain ⟨hpv, hmap'⟩ := hmap
      have hd57 : d ≤ 57 := char_value_le p d hpv
      have hk42 : k ≤ 42 := by
        simp only [List.length_cons] at hklen
        omega
      have hbtot : B.toNat * 58 = 58 ^ k := by
        rw [hBval, ← pow_succ]
        congr 1
        omega
      obtain ⟨b', hb'eq, hb'wf, hb'val⟩ :=
        (mul_u256_spec 58 B hBwf).1 (by rw [hbtot]; exact pow58_lt k (by omega))
      rw [hbtot] at hb'val
      have hpk : 58 ^ k * d ≤ 58 ^ 42 * 57 := by
        have h1 : 58 ^ k * d ≤ 58 ^ k * 57 := Nat.mul_le_mul_left _ hd57
        have h2 : 58 ^ k ≤ 58 ^ 42 := Nat.pow_le_pow_right (by norm_num) hk42
        have h3 : 58 ^ k * 57 ≤ 58 ^ 42 * 57 := Nat.mul_le_mul_right _ h2
        omega
      have hilt : b'.toNat * d < 2 ^ 256 := by
        rw [hb'val]
        have := pow58_lt 43 (by norm_num)
        have h4 : (58 : Nat) ^ 43 = 58 ^ 42 * 58 := pow_succ 58 42
        omega
      obtain ⟨i, hieq, hiwf, hival⟩ := (mul_u256_spec d b' hb'wf).1 hilt
      rw [hb'val] at hival
      have haddlt : acc.toNat + i.toNat < 2 ^ 256 := by
        rw [hival]
        have h1 : 58 ^ k * d ≤ 58 ^ k * 57 := Nat.mul_le_mul_left _ hd57
        have h2 : 58 ^ (k + 1) = 58 ^ k * 58 := pow_succ 58 k
        have h3 : 58 ^ (k + 1) ≤ 58 ^ 43 := Nat.pow_le_pow_right (by norm_num) (by omega)
        have h4 := pow58_lt 43 (by norm_num)
        have hp : 1 ≤ 58 ^ k := Nat.one_le_pow _ _ (by norm_num)
        omega
      obtain ⟨acc', haeq, hawf, haval⟩ := (add_u256_spec acc i haccwf hiwf).1 haddlt
      have hacc'bound : acc'.toNat ≤ 58 ^ (k + 1) - 1 := by
        rw [haval, hival]
        have h1 : 58 ^ (k + 1) = 58 ^ k * 58 := pow_succ 58 k
        have hpd : 58 ^ k * d ≤ 58 ^ k * 57 := Nat.mul_le_mul_left _ hd57
        have hp : 1 ≤ 58 ^ k := Nat.one_le_pow _ _ (by norm_num)
        omega
      have hstep : decodeLoop (List.enumFrom k ((p :: pre') ++ c :: rest)) acc B =
          decodeLoop (List.enumFrom (k + 1) (pre' ++ c :: rest)) acc' b' := by
        rw [List.cons_append, List.enumFrom_cons]
        simp only [decodeLoop, hpv]
        rw [if_neg (by omega : ¬ k = 0), if_pos (by omega : k ≠ 1)]
        simp only [hb'eq, hieq, haeq]
      rw [hstep,
        ih ds' c rest (k + 1) acc' b' (by omega)
          (by simp only [List.length_cons] at hklen ⊢; omega)
          hawf hb'wf (by simpa using hb'val) hacc'bound hmap' hcv]
      congr 1
      simp only [List.length_cons]
      congr 1
      omega

theorem decodeLoop_start (r0 r1 : Char) (rest : List Char) (v0 v1 : Nat)
    (h0 : char_value r0 = some v0) (h1 : char_value r1 = some v1)
    (hv0 : v0 ≤ 57) (hv1 : v1 ≤ 57) :
    ∃ acc2 : Limbs,
      decodeLoop ((r0 :: r1 :: rest).enum) ⟨0, 0, 0, 0⟩ ⟨58, 0, 0, 0⟩ =
        decodeLoop (List.enumFrom 2 rest) acc2 ⟨58, 0, 0, 0⟩ ∧
      acc2.WF ∧ acc2.toNat = v0 + 58 * v1 := by
  have hbwf : Limbs.WF ⟨58, 0, 0, 0⟩ := by
    simp only [Limbs.WF]
    norm_num
  have hbval : Limbs.toNat ⟨58, 0, 0, 0⟩ = 58 := by
    simp [Limbs.toNat]
  obtain ⟨i, hieq, hiwf, hival⟩ := (mul_u256_spec v1 ⟨58, 0, 0, 0⟩ hbwf).1
    (by rw [hbval]; omega)
  rw [hbval] at hival
  have hawf0 : Limbs.WF ⟨v0, 0, 0, 0⟩ := by
    simp only [Limbs.WF]
    norm_num
    omega
  have haval0 : Limbs.toNat ⟨v0, 0, 0, 0⟩ = v0 := by
    simp [Limbs.toNat]
  obtain ⟨acc2, haeq, hawf, haval⟩ := (add_u256_spec ⟨v0, 0, 0, 0⟩ i hawf0 hiwf).1
    (by rw [haval0, hival]; omega)
  refine ⟨acc2, ?_, hawf, by rw [haval, haval0, hival]⟩
  rw [List.enum_cons, List.enumFrom_cons]
  simp only [decodeLoop, h0, h1]
  norm_num
  simp only [hieq, haeq]


theorem u64le_read8 (bs : List Nat) (hlen : bs.length = 8) (hb : ∀ b ∈ bs, b < 256) :
    u64le (readU64 bs 0) = bs := by
  match bs, hlen with
  | [b0, b1, b2, b3, b4, b5, b6, b7], _ =>
    simp only [List.mem_cons, forall_eq_or_imp] at hb
    obtain ⟨h0, h1, h2, h3, h4, h5, h6, h7, -⟩ := hb
    simp only [u64le, readU64, readU32, List.getD, List.cons.injEq, List.getElem?_cons_zero,
      List.getElem?_cons_succ, Option.getD_some]
    norm_num
    omega



theorem getD_drop (bs : List Nat) (n k : Nat) : (bs.drop n).getD k 0 = bs.getD (n + k) 0 := by
  simp [List.getD, List.getElem?_drop]

theorem getD_take (bs : List Nat) (n k : Nat) (h : k < n) :
    (bs.take n).getD k 0 = bs.getD k 0 := by
  simp [List.getD, List.getElem?_take, h]

theorem readU64_drop (bs : List Nat) (n : Nat) : readU64 (bs.drop n) 0 = readU64 bs n := by
  simp only [readU64, readU32, getD_drop, Nat.add_zero, Nat.zero_add]

theorem readU64_take8 (bs : List Nat) : readU64 (bs.take 8) 0 = readU64 bs 0 := by
  simp only [readU64, readU32]
  rw [getD_take _ _ _ (by norm_num), getD_take _ _ _ (by norm_num),
    getD_take _ _ _ (by norm_num), getD_take _ _ _ (by norm_num),
    getD_take _ _ _ (by norm_num), getD_take _ _ _ (by norm_num),
    getD_take _ _ _ (by norm_num), getD_take _ _ _ (by norm_num)]

theorem u64le_chunk (bs : List Nat) (hlen : 8 ≤ bs.length) (hb : ∀ b ∈ bs, b < 256) :
    u64le (readU64 bs 0) = bs.take 8 := by
  rw [← readU64_take8]
  apply u64le_read8
  · rw [List.length_take]
    omega
  · intro b hbmem
    exact hb b (List.mem_of_mem_take hbmem)

theorem seed_bytes_decomp (bs : List Nat) (hlen : bs.length = 32) (hb : ∀ b ∈ bs, b < 256) :
    u64le (readU64 bs 0) ++ (u64le (readU64 bs 8) ++ (u64le (readU64 bs 16) ++
      u64le (readU64 bs 24))) = bs := by
  have hmem8 : ∀ b ∈ bs.drop 8, b < 256 := fun b hm => hb b (List.mem_of_mem_drop hm)
  have hmem16 : ∀ b ∈ bs.drop 16, b < 256 := fun b hm => hb b (List.mem_of_mem_drop hm)
  have hmem24 : ∀ b ∈ bs.drop 24, b < 256 := fun b hm => hb b (List.mem_of_mem_drop hm)
  have h8 : readU64 bs 8 = readU64 (bs.drop 8) 0 := (readU64_drop bs 8).symm
  have h16 : readU64 bs 16 = readU64 (bs.drop 16) 0 := (readU64_drop bs 16).symm
  have h24 : readU64 bs 24 = readU64 (bs.drop 24) 0 := (readU64_drop bs 24).symm
  rw [u64le_chunk bs (by omega) hb, h8, h16, h24,
    u64le_chunk (bs.drop 8) (by rw [List.length_drop]; omega) hmem8,
    u64le_chunk (bs.drop 16) (by rw [List.length_drop]; omega) hmem16,
    u64le_chunk (bs.drop 24) (by rw [List.length_drop]; omega) hmem24]
  rw [show (bs.drop 8).take 8 = (bs.drop 8).take 8 from rfl]
  have e1 : (bs.drop 16).take 8 ++ (bs.drop 24) = bs.drop 16 := by
    rw [show (24 : Nat) = 16 + 8 from rfl, ← List.drop_drop]
    rw [show (bs.drop 16).take 8 ++ (bs.drop 16).drop 8 = bs.drop 16 from
      List.take_append_drop 8 (bs.drop 16)]
  have hd24 : (bs.drop 24).take 8 = bs.drop 24 := by
    apply List.take_of_length_le
    rw [List.length_drop]
    omega
  rw [hd24, e1]
  have e2 : (bs.drop 8).take 8 ++ bs.drop 16 = bs.drop 8 := by
    rw [show (16 : Nat) = 8 + 8 from rfl, ← List.drop_drop]
    exact List.take_append_drop 8 (bs.drop 8)
  rw [e2]
  exact List.take_append_drop 8 bs


end Zahir

namespace Zahir

theorem limbs_toNat_inj (a b : Limbs) (ha : a.WF) (hb : b.WF) (h : a.toNat = b.toNat) :
    a = b := by
  cases a with
  | mk ax ay az aw =>
    cases b with
    | mk bx by' bz bw =>
      obtain ⟨h1, h2, h3, h4⟩ := ha
      obtain ⟨g1, g2, g3, g4⟩ := hb
      simp only [Limbs.toNat] at h h1 h2 h3 h4 g1 g2 g3 g4
      simp only [Limbs.mk.injEq]
      omega

theorem from_base58_run (s : List Char) (ds : List Nat)
    (hblen : strByteLen s = 44) (hlen : s.length = 44)
    (hmap : s.reverse.map char_value = ds.map some) :
    (Nat.ofDigits 58 ds < 2 ^ 256 →
      ∃ L : Limbs, L.WF ∧ L.toNat = Nat.ofDigits 58 ds ∧
        Seed.from_base58 s = .ok ⟨u64le L.x ++ u64le L.y ++ u64le L.z ++ u64le L.w⟩) ∧
    (2 ^ 256 ≤ Nat.ofDigits 58 ds → Seed.from_base58 s = .error .Overflow) := by
  have hrl : s.reverse.length = 44 := by simp [hlen]
  cases hr : s.reverse with
  | nil =>
    rw [hr] at hrl
    simp at hrl
  | cons r0 t0 =>
    cases t0 with
    | nil =>
      rw [hr] at hrl
      simp at hrl
    | cons r1 rest =>
      rw [hr] at hmap hrl
      cases ds with
      | nil => simp at hmap
      | cons v0 ds1 =>
        cases ds1 with
        | nil => simp at hmap
        | cons v1 ds2 =>
          simp only [List.map_cons, List.cons.injEq] at hmap
          obtain ⟨h0, h1, hmap2⟩ := hmap
          have hv0 : v0 ≤ 57 := char_value_le _ _ h0
          have hv1 : v1 ≤ 57 := char_value_le _ _ h1
          obtain ⟨acc2, hstart, hacc2wf, hacc2val⟩ :=
            decodeLoop_start r0 r1 rest v0 v1 h0 h1 hv0 hv1
          have hrest : 2 + rest.length = 44 := by
            simp only [List.length_cons] at hrl
            omega
          have hofd : Nat.ofDigits 58 (v0 :: v1 :: ds2) =
              (v0 + 58 * v1) + 58 ^ 2 * Nat.ofDigits 58 ds2 := by
            rw [Nat.ofDigits_cons, Nat.ofDigits_cons]
            ring
          have hbwf : Limbs.WF ⟨58, 0, 0, 0⟩ := by
            simp only [Limbs.WF]
            norm_num
          have hbval : Limbs.toNat ⟨58, 0, 0, 0⟩ = 58 ^ (2 - 1) := by
            simp [Limbs.toNat]
          have hmaster := decodeLoop_valid rest ds2 2 acc2 ⟨58, 0, 0, 0⟩
            (le_refl 2) hrest hacc2wf hbwf hbval
            (by rw [hacc2val]; omega) (by rw [hacc2val]; norm_num; omega) hmap2
          have hunfold : Seed.from_base58 s =
              match decodeLoop s.reverse.enum ⟨0, 0, 0, 0⟩ ⟨58, 0, 0, 0⟩ with
              | .error e => .error e
              | .ok l => .ok ⟨u64le l.x ++ u64le l.y ++ u64le l.z ++ u64le l.w⟩ := by
            rw [Seed.from_base58, if_neg (by rw [hblen]; norm_num)]
          rw [hr] at hunfold
          rw [hstart] at hunfold
          constructor
          · intro hlt
            rw [hofd] at hlt
            obtain ⟨L, hLeq, hLwf, hLval⟩ := hmaster.1 (by rw [hacc2val]; omega)
            refine ⟨L, hLwf, ?_, ?_⟩
            · rw [hLval, hacc2val, hofd]
            · rw [hunfold, hLeq]
          · intro hge
            rw [hofd] at hge
            have herr := hmaster.2 (by rw [hacc2val]; omega)
            rw [hunfold, herr]

end Zahir

namespace Zahir

theorem digit_char_value : ∀ d, d < 58 → char_value (digit_to_char d) = some d := by decide

theorem digit_char_size : ∀ d, d < 58 → (digit_to_char d).utf8Size = 1 := by decide

/-- The limb view of the seed bytes, as read by `Seed::to_base58`. -/
def Seed.limbs (s : Seed) : Limbs :=
  ⟨readU64 s.bytes 0, readU64 s.bytes 8, readU64 s.bytes 16, readU64 s.bytes 24⟩

/-- The 256-bit value a seed denotes (little-endian). -/
def Seed.natVal (s : Seed) : Nat := s.limbs.toNat

theorem seed_limbs_wf (s : Seed) (h : s.WF) : s.limbs.WF :=
  ⟨readU64_lt _ h.2 _, readU64_lt _ h.2 _, readU64_lt _ h.2 _, readU64_lt _ h.2 _⟩

theorem seed_natVal_lt (s : Seed) (h : s.WF) : s.natVal < 2 ^ 256 := by
  obtain ⟨h1, h2, h3, h4⟩ := seed_limbs_wf s h
  simp only [Seed.natVal, Seed.limbs, Limbs.toNat] at *
  omega

theorem two_pow_256_lt : (2 : Nat) ^ 256 < 58 ^ 44 := by norm_num

theorem to_base58_digits (s : Seed) (h : s.WF) :
    s.to_base58 = ((theDigits s.natVal ++
      List.replicate (44 - (theDigits s.natVal).length) 0).map digit_to_char).reverse := by
  have hbound : s.limbs.toNat < 58 ^ (63 + 1) := by
    have h1 := seed_natVal_lt s h
    have h2 : (58 : Nat) ^ 44 ≤ 58 ^ 64 := Nat.pow_le_pow_right (by norm_num) (by norm_num)
    have h3 := two_pow_256_lt
    simp only [Seed.natVal] at h1
    omega
  rw [Seed.to_base58, show (64 : Nat) = 63 + 1 from rfl]
  rw [show (⟨readU64 s.bytes 0, readU64 s.bytes 8, readU64 s.bytes 16,
        readU64 s.bytes 24⟩ : Limbs) = s.limbs from rfl]
  rw [encodeLoop_eq 63 s.limbs [] (seed_limbs_wf s h) hbound]
  rw [List.nil_append]
  rfl

theorem theDigits_natVal_len (s : Seed) (h : s.WF) :
    (theDigits s.natVal).length ≤ 44 :=
  theDigits_len_le _ (lt_trans (seed_natVal_lt s h) two_pow_256_lt)

theorem to_base58_length (s : Seed) (h : s.WF) : s.to_base58.length = 44 := by
  rw [to_base58_digits s h]
  simp only [List.length_reverse, List.length_map, List.length_append, List.length_replicate]
  have := theDigits_natVal_len s h
  omega

theorem ofDigits_replicate_zero (n : Nat) : Nat.ofDigits 58 (List.replicate n 0) = 0 := by
  induction n with
  | zero => simp [Nat.ofDigits_nil]
  | succ m ih => simp [List.replicate_succ, Nat.ofDigits_cons, ih]

theorem strByteLen_reverse (l : List Char) : strByteLen l.reverse = strByteLen l := by
  simp [strByteLen, List.map_reverse, List.sum_reverse]

theorem strByteLen_digit_map (l : List Nat) (h : ∀ d ∈ l, d < 58) :
    strByteLen (l.map digit_to_char) = l.length := by
  induction l with
  | nil => simp [strByteLen]
  | cons d t ih =>
    simp only [List.map_cons, strByteLen, List.sum_cons] at ih ⊢
    rw [digit_char_size d (h d (by simp)), ih (fun e he => h e (by simp [he]))]
    simp [Nat.add_comm]

/-- C2: For every 32-byte Seed `s`, `from_base58 (to_base58 s)` returns `Ok s`,
and `to_base58 s` always produces a string of exactly 44 characters. -/
theorem C2_base58_round_trip (s : Seed) (h : s.WF) :
    Seed.from_base58 s.to_base58 = .ok s ∧ s.to_base58.length = 44 := by
  refine ⟨?_, to_base58_length s h⟩
  have hdl := theDigits_natVal_len s h
  have hdlt := theDigits_lt s.natVal
  have hpdlt : ∀ d ∈ theDigits s.natVal ++
      List.replicate (44 - (theDigits s.natVal).length) 0, d < 58 := by
    intro d hd
    rcases List.mem_append.mp hd with hd1 | hd2
    · exact hdlt d hd1
    · rw [List.eq_of_mem_replicate hd2]
      norm_num
  have hpdlen : (theDigits s.natVal ++
      List.replicate (44 - (theDigits s.natVal).length) 0).length = 44 := by
    simp only [List.length_append, List.length_replicate]
    omega
  have hts := to_base58_digits s h
  have hstr : s.to_base58.length = 44 := to_base58_length s h
  have hblen : strByteLen s.to_base58 = 44 := by
    rw [hts, strByteLen_reverse, strByteLen_digit_map _ hpdlt, hpdlen]
  have hmap : s.to_base58.reverse.map char_value =
      (theDigits s.natVal ++ List.replicate (44 - (theDigits s.natVal).length) 0).map some := by
    rw [hts, List.reverse_reverse, List.map_map]
    exact List.map_congr_left (fun d hd => digit_char_value d (hpdlt d hd))
  have hofd : Nat.ofDigits 58 (theDigits s.natVal ++
      List.replicate (44 - (theDigits s.natVal).length) 0) = s.natVal := by
    rw [Nat.ofDigits_append, theDigits_ofDigits, ofDigits_replicate_zero]
    ring
  obtain ⟨L, hLwf, hLval, heq⟩ := (from_base58_run s.to_base58 _ hblen hstr hmap).1
    (by rw [hofd]; exact seed_natVal_lt s h)
  rw [hofd] at hLval
  have hL : L = s.limbs :=
    limbs_toNat_inj L s.limbs hLwf (seed_limbs_wf s h) hLval
  rw [heq, hL]
  have hbytes : u64le s.limbs.x ++ u64le s.limbs.y ++ u64le s.limbs.z ++ u64le s.limbs.w =
      s.bytes := by
    rw [List.append_assoc, List.append_assoc]
    have := seed_bytes_decomp s.bytes h.1 h.2
    simpa [Seed.limbs] using this
  rw [hbytes]

end Zahir

namespace Zahir

theorem valid_digits_exist (l : List Char) (h : ∀ a ∈ l, char_value a ≠ none) :
    ∃ ds : List Nat, l.map char_value = ds.map some := by
  induction l with
  | nil => exact ⟨[], rfl⟩
  | cons a t ih =>
    obtain ⟨ds, hds⟩ := ih (fun b hb => h b (by simp [hb]))
    rcases hv : char_value a with - | v
    · exact absurd hv (h a (by simp))
    · exact ⟨v :: ds, by simp [hv, hds]⟩

theorem mul_u256_error_shape (m : Nat) (st : Limbs) (e : ParseSeedError)
    (h : mul_u256 m st = .error e) : e = .Overflow := by
  simp only [mul_u256] at h
  split at h
  · simp only [Except.error.injEq] at h
    exact h.symm
  · simp at h

theorem add_u256_error_shape (a b : Limbs) (e : ParseSeedError)
    (h : add_u256 a b = .error e) : e = .Overflow := by
  simp only [add_u256] at h
  split at h
  · simp only [Except.error.injEq] at h
    exact h.symm
  · simp at h

theorem decodeLoop_ne_invalid_length :
    ∀ (l : List (Nat × Char)) (acc B : Limbs) (L : Nat),
      decodeLoop l acc B ≠ .error (.InvalidLength L) := by
  intro l
  induction l with
  | nil =>
    intro acc B L
    simp [decodeLoop]
  | cons p rest ih =>
    intro acc B L
    obtain ⟨idx, c⟩ := p
    simp only [decodeLoop]
    rcases hv : char_value c with - | v
    · simp
    · by_cases h0 : idx = 0
      · simp only [if_pos h0]
        exact ih _ _ _
      · simp only [if_neg h0]
        rcases hb : (if idx ≠ 1 then mul_u256 58 B else .ok B) with e | b'
        · have : e = .Overflow := by
            by_cases h1 : idx ≠ 1
            · rw [if_pos h1] at hb
              exact mul_u256_error_shape _ _ _ hb
            · rw [if_neg h1] at hb
              simp at hb
          simp [hb, this]
        · rcases hi : mul_u256 v b' with e | i
          · have := mul_u256_error_shape _ _ _ hi
            simp [hb, hi, this]
          · rcases ha : add_u256 acc i with e | acc'
            · have := add_u256_error_shape _ _ _ ha
              simp [hb, hi, ha, this]
            · simp only [hb, hi, ha]
              exact ih _ _ _

end Zahir

namespace Zahir

theorem from_base58_invalid (s pre suf : List Char) (c : Char)
    (hblen : strByteLen s = 44) (hlen : s.length = 44)
    (hsplit : s = pre ++ c :: suf)
    (hc : char_value c = none)
    (hsuf : ∀ a ∈ suf, char_value a ≠ none) :
    Seed.from_base58 s = .error (.InvalidCharacter c pre.length) := by
  have hunfold : Seed.from_base58 s =
      match decodeLoop s.reverse.enum ⟨0, 0, 0, 0⟩ ⟨58, 0, 0, 0⟩ with
      | .error e => .error e
      | .ok l => .ok ⟨u64le l.x ++ u64le l.y ++ u64le l.z ++ u64le l.w⟩ := by
    rw [Seed.from_base58, if_neg (by rw [hblen]; norm_num)]
  have hlens : pre.length + 1 + suf.length = 44 := by
    rw [hsplit] at hlen
    simp only [List.length_append, List.length_cons] at hlen
    omega
  have hrev : s.reverse = suf.reverse ++ c :: pre.reverse := by
    rw [hsplit]
    simp
  rcases hsr : suf.reverse with - | ⟨r0, t⟩
  · have hsuf0 : suf.length = 0 := by
      have := List.reverse_eq_nil_iff.mp hsr
      simp [this]
    rw [hsr, List.nil_append] at hrev
    rw [hunfold, hrev, List.enum_cons]
    simp only [decodeLoop, hc]
    have : pre.length = 44 - 0 - 1 := by omega
    rw [this]
  · have hr0suf : r0 ∈ suf := by
      have : r0 ∈ suf.reverse := by
        rw [hsr]
        simp
      exact List.mem_reverse.mp this
    rcases hv0 : char_value r0 with - | v0
    · exact absurd hv0 (hsuf r0 hr0suf)
    rcases ht : t with - | ⟨r1, m⟩
    · -- suf has exactly one character
      have hsuf1 : suf.length = 1 := by
        have : suf.reverse.length = 1 := by
          rw [hsr, ht]
          rfl
        simpa using this
      rw [ht] at hsr
      rw [hsr] at hrev
      rw [hunfold, hrev]
      simp only [List.cons_append, List.nil_append, List.enum_cons, List.enumFrom_cons]
      simp only [decodeLoop, hv0, hc]
      norm_num
      have : pre.length = 44 - 1 - 1 := by omega
      rw [this]
    · -- suf has at least two characters
      rw [ht] at hsr
      have hr1suf : r1 ∈ suf := by
        have : r1 ∈ suf.reverse := by
          rw [hsr]
          simp
        exact List.mem_reverse.mp this
      rcases hv1 : char_value r1 with - | v1
      · exact absurd hv1 (hsuf r1 hr1suf)
      have hmvalid : ∀ a ∈ m, char_value a ≠ none := by
        intro a ha
        apply hsuf
        apply List.mem_reverse.mp
        rw [hsr]
        simp [ha]
      obtain ⟨ds, hds⟩ := valid_digits_exist m hmvalid
      have hsuflen : suf.length = m.length + 2 := by
        have : suf.reverse.length = m.length + 2 := by
          rw [hsr]
          simp
        simpa using this
      obtain ⟨acc2, hstart, hacc2wf, hacc2val⟩ :=
        decodeLoop_start r0 r1 (m ++ c :: pre.reverse) v0 v1 hv0 hv1
          (char_value_le _ _ hv0) (char_value_le _ _ hv1)
      have hv057 := char_value_le _ _ hv0
      have hv157 := char_value_le _ _ hv1
      have hinv := decodeLoop_invalid m ds c pre.reverse 2 acc2 ⟨58, 0, 0, 0⟩
        (le_refl 2) (by simp only [List.length_reverse]; omega)
        hacc2wf (by simp only [Limbs.WF]; norm_num)
        (by simp [Limbs.toNat]) (by rw [hacc2val]; norm_num; omega)
        hds hc
      rw [hunfold, hrev, hsr]
      simp only [List.cons_append, List.enum_cons, List.enumFrom_cons] at hstart ⊢
      rw [hstart, hinv]
      have : 44 - (2 + m.length) - 1 = pre.length := by omega
      rw [this]

end Zahir

namespace Zahir

/-- C5 (amended): `Seed::from_base58` fails with `InvalidLength` exactly when
the input's UTF-8 byte length differs from 44 (reporting that byte length, not
the character count); for inputs of 44 characters in 44 bytes whose rightmost
non-alphabet character is `c` at (left-to-right) index `pre.length`, it fails
with `InvalidCharacter {c, pre.length}`; and for 44-character inputs built
entirely from the base-58 alphabet it fails with `Overflow` exactly when the
decoded value reaches `2 ^ 256`. It never silently truncates or corrects. -/
theorem C5_from_base58_errors (s : List Char) :
    (strByteLen s ≠ 44 → Seed.from_base58 s = .error (.InvalidLength (strByteLen s))) ∧
    (∀ L, Seed.from_base58 s = .error (.InvalidLength L) →
      strByteLen s ≠ 44 ∧ L = strByteLen s) ∧
    (∀ pre suf c, strByteLen s = 44 → s.length = 44 → s = pre ++ c :: suf →
      char_value c = none → (∀ a ∈ suf, char_value a ≠ none) →
      Seed.from_base58 s = .error (.InvalidCharacter c pre.length)) ∧
    (∀ ds, strByteLen s = 44 → s.length = 44 →
      s.reverse.map char_value = ds.map some →
      (Seed.from_base58 s = .error .Overflow ↔ 2 ^ 256 ≤ Nat.ofDigits 58 ds)) := by
  refine ⟨?_, ?_, ?_, ?_⟩
  · intro h
    rw [Seed.from_base58, if_pos h]
  · intro L h
    by_cases hb : strByteLen s = 44
    · exfalso
      rw [Seed.from_base58, if_neg (by rw [hb]; norm_num)] at h
      rcases hd : decodeLoop s.reverse.enum ⟨0, 0, 0, 0⟩ ⟨58, 0, 0, 0⟩ with e | l
      · rw [hd] at h
        simp only [Except.error.injEq] at h
        rw [h] at hd
        exact decodeLoop_ne_invalid_length _ _ _ _ hd
      · rw [hd] at h
        simp at h
    · rw [Seed.from_base58, if_pos hb] at h
      simp only [Except.error.injEq, ParseSeedError.InvalidLength.injEq] at h
      exact ⟨hb, h.symm⟩
  · intro pre suf c hblen hlen hsplit hc hsuf
    exact from_base58_invalid s pre suf c hblen hlen hsplit hc hsuf
  · intro ds hblen hlen hmap
    constructor
    · intro h
      by_contra hlt
      push_neg at hlt
      obtain ⟨L, -, -, heq⟩ := (from_base58_run s ds hblen hlen hmap).1 hlt
      rw [heq] at h
      simp at h
    · intro hge
      exact (from_base58_run s ds hblen hlen hmap).2 hge

/-- C5 counterexample: a 44-byte input of 22 two-byte characters is not 44
characters long, yet `from_base58` does not return `InvalidLength` (the byte
length check passes) — it reports `InvalidCharacter` with index 43, which is
not the character's original index (21). -/
theorem C5_from_base58_errors_counterexample :
    (List.replicate 22 'Ā').length = 22 ∧
    Seed.from_base58 (List.replicate 22 'Ā') = .error (.InvalidCharacter 'Ā' 43) := by
  constructor
  · decide
  · decide

/-- Witness for C5 (amended) at the repository's own test inputs. -/
theorem C5_from_base58_errors_witness :
    Seed.from_base58 "abc".toList = .error (.InvalidLength 3) ∧
    Seed.from_base58 "2GjrFRmuRWVenL0TtQaZupNoTGvEa8DipMyhdyNYxcko".toList =
      .error (.InvalidCharacter '0' 14) ∧
    Seed.from_base58 "JEKNVnkbo3jma5nREBBJCDoXFVeKkD56V3xKrvRmWxFH".toList =
      .error .Overflow := by
  refine ⟨?_, ?_, ?_⟩
  · have h := (C5_from_base58_errors "abc".toList).1 (by decide)
    rw [(by decide : strByteLen "abc".toList = 3)] at h
    exact h
  · have h := (C5_from_base58_errors
        "2GjrFRmuRWVenL0TtQaZupNoTGvEa8DipMyhdyNYxcko".toList).2.2.1
      "2GjrFRmuRWVenL".toList "TtQaZupNoTGvEa8DipMyhdyNYxcko".toList '0'
      (by decide) (by decide) (by decide) (by decide) (by decide)
    rw [(by decide : ("2GjrFRmuRWVenL".toList).length = 14)] at h
    exact h
  · exact ((C5_from_base58_errors
        "JEKNVnkbo3jma5nREBBJCDoXFVeKkD56V3xKrvRmWxFH".toList).2.2.2
      ("JEKNVnkbo3jma5nREBBJCDoXFVeKkD56V3xKrvRmWxFH".toList.reverse.map
        (fun c => (char_value c).getD 0))
      (by decide) (by decide) (by decide)).mpr (by decide)

end Zahir

namespace Zahir

/-- `Seed::DEFAULT_SEED` (`src/random/seed.rs`). -/
def Seed.DEFAULT_SEED : Seed :=
  ⟨[0x12, 0xE3, 0xD9, 0x45, 0x3C, 0x6A, 0xBB, 0x33,
    0x9D, 0x6B, 0x2E, 0x6F, 0x53, 0x98, 0x7E, 0x7A,
    0xE8, 0xA3, 0x09, 0xE0, 0x8E, 0xA7, 0x39, 0xEF,
    0xF0, 0x3D, 0x48, 0x62, 0xB3, 0xED, 0x97, 0x80]⟩

/-- `MIN_SEED` of the unit tests: all-zero bytes. -/
def MIN_SEED : Seed := ⟨List.replicate 32 0⟩

/-- `MAX_SEED` of the unit tests: all-0xFF bytes. -/
def MAX_SEED : Seed := ⟨List.replicate 32 255⟩

/-- Witness for C2 at the repository's `DEFAULT_SEED`. -/
theorem C2_base58_round_trip_witness :
    Seed.from_base58 Seed.DEFAULT_SEED.to_base58 = .ok Seed.DEFAULT_SEED ∧
    Seed.DEFAULT_SEED.to_base58.length = 44 :=
  C2_base58_round_trip Seed.DEFAULT_SEED (by constructor <;> decide)

/-- C8: the all-zero seed encodes to 44 `'1'` characters; the all-0xFF seed
and the default seed encode to their fixed golden strings; and each golden
string decodes back to the corresponding seed. -/
theorem C8_golden_vectors :
    Seed.to_base58 MIN_SEED = "11111111111111111111111111111111111111111111".toList ∧
    Seed.to_base58 MAX_SEED = "JEKNVnkbo3jma5nREBBJCDoXFVeKkD56V3xKrvRmWxFG".toList ∧
    Seed.to_base58 Seed.DEFAULT_SEED = "9eyYzoXRx7wTVRon6sF2EWNBUcg4bXBZQbV2dJrEq7A1".toList ∧
    Seed.from_base58 "11111111111111111111111111111111111111111111".toList = .ok MIN_SEED ∧
    Seed.from_base58 "JEKNVnkbo3jma5nREBBJCDoXFVeKkD56V3xKrvRmWxFG".toList = .ok MAX_SEED ∧
    Seed.from_base58 "9eyYzoXRx7wTVRon6sF2EWNBUcg4bXBZQbV2dJrEq7A1".toList =
      .ok Seed.DEFAULT_SEED := by
  refine ⟨by decide, by decide, by decide, by decide, by decide, by decide⟩

end Zahir

namespace Zahir

/-! ## Geometry: `LatticeNeighborhood` (`src/geometry/lattice_neighborhood.rs`).
Integer points `Point<DIM>` are lists of `Int` coordinates of length `DIM`. -/

/-- The coordinate offset computed by `LatticeNeighborhood::next` at enumeration
index `idx` for dimension `dim`: `(idx % 3^(dim+1)) / 3^dim - 1`. -/
def latticeOffset (idx dim : Nat) : Int :=
  ((idx % 3 ^ (dim + 1)) / 3 ^ dim : Nat) - 1

/-- The point emitted at enumeration index `idx`: the origin offset
componentwise (`self.origin + Point::new(coordinates)`). -/
def latticePoint (DIM : Nat) (origin : List Int) (idx : Nat) : List Int :=
  (List.range DIM).map (fun dim => origin.getD dim 0 + latticeOffset idx dim)

/-- The `Iterator::next` recursion of `LatticeNeighborhood`, run to exhaustion:
indices count up from `current_index`, the self index `3^DIM / 2` is skipped
when `include_self` is false, and iteration stops at `3^DIM`. Fuel bounds the
number of `next` calls; `3^DIM + 1` always suffices. -/
def latticeRun (DIM : Nat) (origin : List Int) (includeSelf : Bool) :
    Nat → Nat → List (List Int)
  | 0, _ => []
  | fuel + 1, idx =>
    if 3 ^ DIM ≤ idx then []
    else if includeSelf = false ∧ idx = 3 ^ DIM / 2 then
      latticeRun DIM origin includeSelf fuel (idx + 1)
    else latticePoint DIM origin idx :: latticeRun DIM origin includeSelf fuel (idx + 1)

/-- All points yielded by a fresh `LatticeNeighborhood` iterator. -/
def latticeNeighborhood (DIM : Nat) (origin : List Int) (includeSelf : Bool) :
    List (List Int) :=
  latticeRun DIM origin includeSelf (3 ^ DIM + 1) 0

theorem latticeRun_eq (DIM : Nat) (origin : List Int) (includeSelf : Bool) :
    ∀ fuel idx, 3 ^ DIM - idx < fuel →
      latticeRun DIM origin includeSelf fuel idx =
        ((List.range' idx (3 ^ DIM - idx)).filter
          (fun k => includeSelf || !(k = 3 ^ DIM / 2 : Bool))).map
          (latticePoint DIM origin) := by
  intro fuel
  induction fuel with
  | zero =>
    intro idx h
    omega
  | succ f ih =>
    intro idx h
    by_cases hstop : 3 ^ DIM ≤ idx
    · rw [show latticeRun DIM origin includeSelf (f + 1) idx = [] from by
        simp [latticeRun, hstop]]
      rw [show 3 ^ DIM - idx = 0 by omega]
      simp
    · push_neg at hstop
      rw [show 3 ^ DIM - idx = (3 ^ DIM - (idx + 1)) + 1 by omega, List.range'_succ]
      by_cases hskip : includeSelf = false ∧ idx = 3 ^ DIM / 2
      · rw [show latticeRun DIM origin includeSelf (f + 1) idx =
            latticeRun DIM origin includeSelf f (idx + 1) from by
          simp only [latticeRun]
          rw [if_neg (by omega), if_pos hskip]]
        rw [ih (idx + 1) (by omega)]
        have hpred : (includeSelf || !(idx = 3 ^ DIM / 2 : Bool)) = false := by
          obtain ⟨h1, h2⟩ := hskip
          simp [h1, h2]
        simp only [List.filter_cons, hpred]
        rfl
      · rw [show latticeRun DIM origin includeSelf (f + 1) idx =
            latticePoint DIM origin idx ::
              latticeRun DIM origin includeSelf f (idx + 1) from by
          simp only [latticeRun]
          rw [if_neg (by omega), if_neg hskip]]
        rw [ih (idx + 1) (by omega)]
        have hpred : (includeSelf || !(idx = 3 ^ DIM / 2 : Bool)) = true := by
          rcases Bool.eq_false_or_eq_true includeSelf with h1 | h1
          · simp [h1]
          · have h2 : ¬ idx = 3 ^ DIM / 2 := fun he => hskip ⟨h1, he⟩
            simp [h1, h2]
        simp only [List.filter_cons, hpred]
        rfl

end Zahir

namespace Zahir

theorem latticeNeighborhood_include (DIM : Nat) (origin : List Int) :
    latticeNeighborhood DIM origin true =
      (List.range' 0 (3 ^ DIM)).map (latticePoint DIM origin) := by
  rw [latticeNeighborhood,
    latticeRun_eq DIM origin true (3 ^ DIM + 1) 0 (Nat.lt_succ_of_le (Nat.sub_le _ _))]
  simp

theorem center_mod (D e : Nat) (h : e ≤ D) : (3 ^ D / 2) % 3 ^ e = 3 ^ e / 2 := by
  obtain ⟨q, hq⟩ := (Odd.pow (⟨1, by norm_num⟩ : Odd 3) : Odd ((3 : Nat) ^ (D - e)))
  have hsplit : (3 : Nat) ^ D = 3 ^ e * 3 ^ (D - e) := by
    rw [← pow_add]
    congr 1
    omega
  have h1 : (3 : Nat) ^ D = 2 * (3 ^ e * q) + 3 ^ e := by
    rw [hsplit, hq]
    ring
  have h2 : (3 : Nat) ^ D / 2 = 3 ^ e / 2 + 3 ^ e * q := by omega
  rw [h2, Nat.add_mul_mod_self_left]
  have hp : 0 < (3 : Nat) ^ e := pow_pos (by norm_num) e
  exact Nat.mod_eq_of_lt (by omega)

theorem center_offset_zero (D dim : Nat) (h : dim < D) :
    latticeOffset (3 ^ D / 2) dim = 0 := by
  rw [latticeOffset, center_mod D (dim + 1) (by omega)]
  have h3 : (3 : Nat) ^ (dim + 1) = 3 ^ dim * 3 := pow_succ 3 dim
  have hp : 0 < (3 : Nat) ^ dim := pow_pos (by norm_num) dim
  have hdiv : (3 : Nat) ^ (dim + 1) / 2 = 3 ^ dim / 2 + 3 ^ dim := by omega
  rw [hdiv, Nat.add_div_right _ hp, Nat.div_eq_of_lt (by omega)]
  norm_num

theorem latticeOffset_mem (idx dim : Nat) :
    latticeOffset idx dim = -1 ∨ latticeOffset idx dim = 0 ∨ latticeOffset idx dim = 1 := by
  have hp : 0 < (3 : Nat) ^ dim := pow_pos (by norm_num) dim
  have h3 : (3 : Nat) ^ (dim + 1) = 3 ^ dim * 3 := pow_succ 3 dim
  have h2 : idx % 3 ^ (dim + 1) / 3 ^ dim < 3 := by
    rw [Nat.div_lt_iff_lt_mul hp]
    have h1 : idx % 3 ^ (dim + 1) < 3 ^ (dim + 1) :=
      Nat.mod_lt _ (pow_pos (by norm_num) _)
    omega
  unfold latticeOffset
  have hcast : ((idx % 3 ^ (dim + 1) / 3 ^ dim : Nat) : Int) < 3 := by exact_mod_cast h2
  generalize hgen : ((idx % 3 ^ (dim + 1) / 3 ^ dim : Nat) : Int) = v at hcast ⊢
  have hnn : 0 ≤ v := by
    rw [← hgen]
    positivity
  omega

theorem latticeNeighborhood_exclude (DIM : Nat) (origin : List Int) :
    latticeNeighborhood DIM origin false =
      (latticeNeighborhood DIM origin true).eraseIdx (3 ^ DIM / 2) := by
  have hn : 0 < 3 ^ DIM := pow_pos (by norm_num) DIM
  have hc : 3 ^ DIM / 2 < 3 ^ DIM := Nat.div_lt_self hn (by norm_num)
  rw [latticeNeighborhood_include, latticeNeighborhood,
    latticeRun_eq DIM origin false (3 ^ DIM + 1) 0 (Nat.lt_succ_of_le (Nat.sub_le _ _))]
  have hsplit : List.range' 0 (3 ^ DIM) =
      List.range' 0 (3 ^ DIM / 2) ++ (3 ^ DIM / 2) ::
        List.range' (3 ^ DIM / 2 + 1) (3 ^ DIM - 3 ^ DIM / 2 - 1) := by
    obtain ⟨m, hm⟩ : ∃ m, 3 ^ DIM - 3 ^ DIM / 2 = m + 1 :=
      ⟨3 ^ DIM - 3 ^ DIM / 2 - 1, by omega⟩
    have e0 : (3 ^ DIM / 2) :: List.range' (3 ^ DIM / 2 + 1) (3 ^ DIM - 3 ^ DIM / 2 - 1) =
        List.range' (3 ^ DIM / 2) (3 ^ DIM - 3 ^ DIM / 2) := by
      rw [hm, List.range'_succ]
      simp
    rw [e0]
    have e1 := List.range'_append_1 0 (3 ^ DIM / 2) (3 ^ DIM - 3 ^ DIM / 2)
    simp only [Nat.zero_add] at e1
    rw [e1]
    congr 1
    omega
  rw [Nat.sub_zero, hsplit]
  rw [List.filter_append, List.filter_cons]
  have hpredc : (false || !(3 ^ DIM / 2 = 3 ^ DIM / 2 : Bool)) = false := by simp
  rw [hpredc]
  have hleft : (List.range' 0 (3 ^ DIM / 2)).filter
      (fun k => false || !(k = 3 ^ DIM / 2 : Bool)) = List.range' 0 (3 ^ DIM / 2) := by
    apply List.filter_eq_self.mpr
    intro a ha
    have hmem := List.mem_range'_1.mp ha
    have hne : a ≠ 3 ^ DIM / 2 := by omega
    simp [hne]
  have hright : (List.range' (3 ^ DIM / 2 + 1) (3 ^ DIM - 3 ^ DIM / 2 - 1)).filter
      (fun k => false || !(k = 3 ^ DIM / 2 : Bool)) =
      List.range' (3 ^ DIM / 2 + 1) (3 ^ DIM - 3 ^ DIM / 2 - 1) := by
    apply List.filter_eq_self.mpr
    intro a ha
    have hmem := List.mem_range'_1.mp ha
    have hne : a ≠ 3 ^ DIM / 2 := by omega
    simp [hne]
  rw [hleft, hright, List.map_append, List.map_append, List.map_cons]
  rw [List.eraseIdx_append_of_length_le
    (by simp only [List.length_map, List.length_range']; exact le_refl _)]
  simp

/-- C7: `LatticeNeighborhood` yields exactly `3^DIM` points including self and
`3^DIM - 1` excluding self; the `k`-th emitted point (including self) offsets
each coordinate `dim` of the origin by `(k mod 3^(dim+1)) / 3^dim - 1`, each
offset lying in `{-1, 0, +1}`; excluding self skips exactly the center at
enumeration index `3^DIM / 2`, whose offsets are all zero. -/
theorem C7_lattice_neighborhood (DIM : Nat) (origin : List Int) :
    (latticeNeighborhood DIM origin true).length = 3 ^ DIM ∧
    (latticeNeighborhood DIM origin false).length = 3 ^ DIM - 1 ∧
    (∀ k, k < 3 ^ DIM →
      (latticeNeighborhood DIM origin true).getD k [] = latticePoint DIM origin k) ∧
    (∀ k dim, dim < DIM → (latticePoint DIM origin k).getD dim 0 =
      origin.getD dim 0 + (((k % 3 ^ (dim + 1)) / 3 ^ dim : Nat) - 1 : Int)) ∧
    (∀ k dim, latticeOffset k dim = -1 ∨ latticeOffset k dim = 0 ∨
      latticeOffset k dim = 1) ∧
    (∀ dim, dim < DIM → latticeOffset (3 ^ DIM / 2) dim = 0) ∧
    latticeNeighborhood DIM origin false =
      (latticeNeighborhood DIM origin true).eraseIdx (3 ^ DIM / 2) := by
  have hn : 0 < 3 ^ DIM := pow_pos (by norm_num) DIM
  have hc : 3 ^ DIM / 2 < 3 ^ DIM := Nat.div_lt_self hn (by norm_num)
  have hlen : (latticeNeighborhood DIM origin true).length = 3 ^ DIM := by
    rw [latticeNeighborhood_include]
    simp
  refine ⟨hlen, ?_, ?_, ?_, fun k dim => latticeOffset_mem k dim,
    fun dim h => center_offset_zero DIM dim h, latticeNeighborhood_exclude DIM origin⟩
  · rw [latticeNeighborhood_exclude, List.length_eraseIdx]
    rw [hlen]
    simp [hc]
  · intro k hk
    rw [latticeNeighborhood_include]
    rw [List.getD_eq_getElem _ _ (by simpa using hk)]
    rw [List.getElem_map, List.getElem_range']
    norm_num
  · intro k dim hdim
    rw [latticePoint, List.getD_eq_getElem _ _ (by simpa using hdim)]
    rw [List.getElem_map, List.getElem_range]
    rfl

end Zahir

namespace Zahir

/-- Witness for C7 at the unit tests' 2-D origin `(5, 2)`. -/
theorem C7_lattice_neighborhood_witness :
    (latticeNeighborhood 2 [(5 : Int), 2] true).length = 3 ^ 2 ∧
    (latticeNeighborhood 2 [(5 : Int), 2] false).length = 3 ^ 2 - 1 ∧
    (latticeNeighborhood 2 [(5 : Int), 2] true).getD 3 [] = latticePoint 2 [(5 : Int), 2] 3 ∧
    latticeNeighborhood 2 [(5 : Int), 2] false =
      (latticeNeighborhood 2 [(5 : Int), 2] true).eraseIdx (3 ^ 2 / 2) := by
  obtain ⟨h1, h2, h3, h4, h5, h6, h7⟩ := C7_lattice_neighborhood 2 [(5 : Int), 2]
  exact ⟨h1, h2, h3 3 (by decide), h7⟩

end Zahir

namespace Zahir

/-! ## Real-valued utilities (`src/utils.rs`).

`f64` arithmetic is embedded over `ℚ` (exact arithmetic); `f64` literals
become the exact rational value of the corresponding double. -/

/-- `utils::lerp`: `(rhs - lhs).mul_add(bias, lhs)`. -/
def lerp (bias lhs rhs : ℚ) : ℚ := (rhs - lhs) * bias + lhs

/-- `utils::smoothstep`: `x.powi(3) * x.mul_add(x.mul_add(6.0, -15.0), 10.0)`,
i.e. `6x^5 - 15x^4 + 10x^3`. -/
def smoothstep (x : ℚ) : ℚ := x ^ 3 * (x * (x * 6 - 15) + 10)

/-- `utils::neg_unit_to_unit`: `x.mul_add(0.5, 0.5)`. -/
def neg_unit_to_unit (x : ℚ) : ℚ := x * (1 / 2) + 1 / 2

/-- The exact rational value of the double `std::f64::consts::PI`. -/
def PI_F64 : ℚ := 884279719003555 / 281474976710656

/-- `utils::cerp` (cosine interpolation), parameterized by the cosine function
`cosF` — the transcendental `f64::cos` is not representable in an exact-real
model, so it is kept abstract. -/
def cerp (cosF : ℚ → ℚ) (bias lhs rhs : ℚ) : ℚ :=
  let bias := (1 - cosF (bias * PI_F64)) / 2
  (rhs - lhs) * bias + lhs

/-- `utils::f64_from_mantissa`: XORing `F64_ONE_BITS` with the top 52 bits of
the hash builds the float `1 + (mantissa >> 12) / 2^52 ∈ [1, 2)`, which is
then rescaled by `float.mul_add(max - min, min * 2.0 - max)`. Exact for
mantissa values below `2^64`. -/
def f64_from_mantissa (mantissa : Nat) (min max : ℚ) : ℚ :=
  let float : ℚ := 1 + ((mantissa >>> 12 : Nat) : ℚ) / 2 ^ 52
  float * (max - min) + (min * 2 - max)

/-! ## `HarmonicNode` (`src/noise/harmonic_node.rs`).

A noise node of dimension DIM is its `value_at` function `List ℚ → ℚ`
(the `NoiseNode` trait has that single method). The final `value / max_value`
division is modelled with IEEE-754 special values (`FQuot`), since `0.0/0.0`
is `NaN` and `x/0.0` is a signed infinity. -/

/-- An `f64` division result: a finite value, a NaN, or a signed infinity. -/
inductive FQuot where
  | nan
  | posInf
  | negInf
  | val (x : ℚ)
  deriving DecidableEq

/-- IEEE-754 division for finite exact operands. -/
def fdiv (num den : ℚ) : FQuot :=
  if den = 0 then
    if num = 0 then .nan else if 0 < num then .posInf else .negInf
  else .val (num / den)

/-- Whether an `f64` division result is a value in `[0, 1]` (a NaN or an
infinity is not). -/
def FQuot.inUnitInterval : FQuot → Prop
  | .val x => 0 ≤ x ∧ x ≤ 1
  | _ => False

/-- Componentwise `point * scalar` (`RealPoint * f64`). -/
def scaleQ (p : List ℚ) (s : ℚ) : List ℚ := p.map (fun c => c * s)

/-- `struct HarmonicNode`: a source node and the fractal parameters. -/
structure HarmonicNode where
  source : List ℚ → ℚ
  num_octaves : Nat
  persistence : ℚ
  lacunarity : ℚ

/-- The state of `HarmonicNode::value_at`'s `for` loop after `n` octaves:
`(value, max_value, frequency, amplitude)`. -/
def HarmonicNode.sums (h : HarmonicNode) (p : List ℚ) : Nat → ℚ × ℚ × ℚ × ℚ
  | 0 => (0, 0, 1, 1)
  | n + 1 =>
    let s := h.sums p n
    (s.1 + h.source (scaleQ p s.2.2.1) * s.2.2.2,
     s.2.1 + s.2.2.2,
     s.2.2.1 * h.lacunarity,
     s.2.2.2 * h.persistence)

/-- `HarmonicNode::value_at`: the loop followed by `value / max_value`. -/
def HarmonicNode.value_at (h : HarmonicNode) (p : List ℚ) : FQuot :=
  fdiv (h.sums p h.num_octaves).1 (h.sums p h.num_octaves).2.1

theorem sums_frequency (h : HarmonicNode) (p : List ℚ) (n : Nat) :
    (h.sums p n).2.2.1 = h.lacunarity ^ n ∧ (h.sums p n).2.2.2 = h.persistence ^ n := by
  induction n with
  | zero => simp [HarmonicNode.sums]
  | succ m ih =>
    simp only [HarmonicNode.sums, ih.1, ih.2]
    constructor <;> ring

theorem sums_value (h : HarmonicNode) (p : List ℚ) (n : Nat) :
    (h.sums p n).1 =
      ∑ k ∈ Finset.range n, h.source (scaleQ p (h.lacunarity ^ k)) * h.persistence ^ k ∧
    (h.sums p n).2.1 = ∑ k ∈ Finset.range n, h.persistence ^ k := by
  induction n with
  | zero => simp [HarmonicNode.sums]
  | succ m ih =>
    simp only [HarmonicNode.sums, ih.1, ih.2, (sums_frequency h p m).1,
      (sums_frequency h p m).2, Finset.sum_range_succ]
    exact ⟨trivial, trivial⟩

end Zahir

namespace Zahir

/-- C6 (amended): `HarmonicNode::value_at` is the IEEE division of the octave
sum `Σ source(point·lacunarity^k)·persistence^k` by the amplitude sum
`Σ persistence^k` (k ranging over `0..num_octaves`); and provided
`persistence ≥ 0` and `num_octaves ≥ 1`, whenever every output of the source
lies in `[0,1]` the result is a value in `[0,1]`. -/
theorem C6_harmonic_value (h : HarmonicNode) (p : List ℚ) :
    h.value_at p =
      fdiv (∑ k ∈ Finset.range h.num_octaves,
          h.source (scaleQ p (h.lacunarity ^ k)) * h.persistence ^ k)
        (∑ k ∈ Finset.range h.num_octaves, h.persistence ^ k) ∧
    (0 ≤ h.persistence → 1 ≤ h.num_octaves →
      (∀ q, h.source q ∈ Set.Icc (0 : ℚ) 1) →
      ∃ v, h.value_at p = .val v ∧ v ∈ Set.Icc (0 : ℚ) 1) := by
  have hv := (sums_value h p h.num_octaves).1
  have hm := (sums_value h p h.num_octaves).2
  constructor
  · rw [HarmonicNode.value_at, hv, hm]
  · intro hρ hn hsrc
    set N := ∑ k ∈ Finset.range h.num_octaves,
      h.source (scaleQ p (h.lacunarity ^ k)) * h.persistence ^ k with hN
    set D := ∑ k ∈ Finset.range h.num_octaves, h.persistence ^ k with hD
    have hρk : ∀ k, (0 : ℚ) ≤ h.persistence ^ k := fun k => pow_nonneg hρ k
    have hD1 : (1 : ℚ) ≤ D := by
      have h0 : (0 : Nat) ∈ Finset.range h.num_octaves := by
        simp
        omega
      have := Finset.single_le_sum (f := fun k => h.persistence ^ k)
        (fun i _ => hρk i) h0
      simpa using this
    have hDpos : (0 : ℚ) < D := by linarith
    have hN0 : (0 : ℚ) ≤ N := by
      apply Finset.sum_nonneg
      intro i _
      exact mul_nonneg (hsrc _).1 (hρk i)
    have hND : N ≤ D := by
      apply Finset.sum_le_sum
      intro i _
      calc h.source (scaleQ p (h.lacunarity ^ i)) * h.persistence ^ i ≤
          1 * h.persistence ^ i :=
        mul_le_mul_of_nonneg_right (hsrc _).2 (hρk i)
      _ = h.persistence ^ i := one_mul _
    refine ⟨N / D, ?_, ?_, ?_⟩
    · rw [HarmonicNode.value_at, hv, hm]
      simp only [fdiv]
      rw [if_neg (by linarith : ¬ D = 0)]
    · exact div_nonneg hN0 (le_of_lt hDpos)
    · rw [div_le_one hDpos]
      exact hND

/-- C6 counterexample: a harmonic node with `persistence = -2` over a source
whose outputs all lie in `[0,1]` produces the value `2 ∉ [0,1]`. -/
theorem C6_harmonic_value_counterexample :
    (∀ q : List ℚ, (if (2 : ℚ) ≤ q.getD 0 0 then (1 : ℚ) else 0) ∈ Set.Icc (0 : ℚ) 1) ∧
    HarmonicNode.value_at
      ⟨fun q => if (2 : ℚ) ≤ q.getD 0 0 then 1 else 0, 2, -2, 2⟩ [1] = .val 2 ∧
    (2 : ℚ) ∉ Set.Icc (0 : ℚ) 1 := by
  refine ⟨?_, ?_, by norm_num⟩
  · intro q
    split <;> simp
  · norm_num [HarmonicNode.value_at, show (2 : Nat) = 1 + 1 from rfl, HarmonicNode.sums,
      scaleQ, fdiv, List.getD]

/-- Witness for C6 at a concrete one-octave node. -/
theorem C6_harmonic_value_witness :
    (HarmonicNode.value_at ⟨fun _ => 1, 1, 1, 1⟩ [0] =
      fdiv (∑ k ∈ Finset.range 1, (fun (_ : List ℚ) => (1 : ℚ)) (scaleQ [0] ((1 : ℚ) ^ k)) *
          (1 : ℚ) ^ k)
        (∑ k ∈ Finset.range 1, (1 : ℚ) ^ k)) ∧
    ∃ v, HarmonicNode.value_at ⟨fun _ => 1, 1, 1, 1⟩ [0] = .val v ∧ v ∈ Set.Icc (0 : ℚ) 1 := by
  have h := C6_harmonic_value ⟨fun _ => 1, 1, 1, 1⟩ [0]
  exact ⟨h.1, h.2 (by norm_num) (by norm_num) (fun q => by norm_num)⟩

/-- C9: with `num_octaves = 0` both the octave sum and the amplitude sum are
exactly `0.0`, so `value_at` performs the IEEE division `0.0 / 0.0`, returning
NaN — not a value in `[0,1]` — for every point. -/
theorem C9_harmonic_zero_octaves (h : HarmonicNode) (p : List ℚ)
    (h0 : h.num_octaves = 0) :
    (h.sums p h.num_octaves).1 = 0 ∧ (h.sums p h.num_octaves).2.1 = 0 ∧
    h.value_at p = .nan ∧ ¬ (h.value_at p).inUnitInterval := by
  have he : h.value_at p = .nan := by
    rw [HarmonicNode.value_at, h0]
    simp [HarmonicNode.sums, fdiv]
  refine ⟨by rw [h0]; rfl, by rw [h0]; rfl, he, ?_⟩
  rw [he]
  simp [FQuot.inUnitInterval]

/-- Witness for C9 at a concrete zero-octave node. -/
theorem C9_harmonic_zero_octaves_witness :
    HarmonicNode.value_at ⟨fun _ => 1, 0, 1, 1⟩ [0] = .nan ∧
    ¬ (HarmonicNode.value_at ⟨fun _ => 1, 0, 1, 1⟩ [0]).inUnitInterval :=
  ⟨(C9_harmonic_zero_octaves ⟨fun _ => 1, 0, 1, 1⟩ [0] rfl).2.2.1,
   (C9_harmonic_zero_octaves ⟨fun _ => 1, 0, 1, 1⟩ [0] rfl).2.2.2⟩

end Zahir

namespace Zahir

/-! Boundedness of the wyhash pipeline: every output is a `u64` value. -/

/-- Every field of a Wyhash instance is a `u64` value. -/
def Wyhash.BF (self : Wyhash) : Prop :=
  self.seed < 2 ^ 64 ∧ self.secret0 < 2 ^ 64 ∧ self.secret1 < 2 ^ 64 ∧
    self.secret2 < 2 ^ 64 ∧ self.secret3 < 2 ^ 64

namespace Wyhash

theorem wymum_lt (x y : Nat) (hx : x < 2 ^ 64) (hy : y < 2 ^ 64) :
    (wymum x y).1 < 2 ^ 64 ∧ (wymum x y).2 < 2 ^ 64 := by
  constructor
  · exact Nat.xor_lt_two_pow hx (by rw [M64_eq]; exact Nat.mod_lt _ (by norm_num))
  · refine Nat.xor_lt_two_pow hy ?_
    have hprod : x * y < 2 ^ 64 * 2 ^ 64 := by
      calc x * y ≤ x * (2 ^ 64) := Nat.mul_le_mul_left x (le_of_lt hy)
      _ < 2 ^ 64 * 2 ^ 64 := by
        apply Nat.mul_lt_mul_right (by norm_num) |>.mpr
        exact hx
    rw [M64_eq]
    omega

theorem wymix_lt (x y : Nat) (hx : x < 2 ^ 64) (hy : y < 2 ^ 64) :
    wymix x y < 2 ^ 64 := by
  obtain ⟨h1, h2⟩ := wymum_lt x y hx hy
  exact Nat.xor_lt_two_pow h1 h2

theorem finish_lt (self : Wyhash) (hb : self.BF) (lhs rhs seed len : Nat)
    (h1 : lhs < 2 ^ 64) (h2 : rhs < 2 ^ 64) (h3 : seed < 2 ^ 64) (h4 : len < 2 ^ 64) :
    self.finish lhs rhs seed len < 2 ^ 64 := by
  obtain ⟨b0, b1, b2, b3, b4⟩ := hb
  obtain ⟨m1, m2⟩ := wymum_lt (lhs ^^^ self.secret1) (rhs ^^^ seed)
    (Nat.xor_lt_two_pow h1 b2) (Nat.xor_lt_two_pow h2 h3)
  exact wymix_lt _ _
    (Nat.xor_lt_two_pow (Nat.xor_lt_two_pow m1 b1) h4)
    (Nat.xor_lt_two_pow m2 b2)

theorem hash_1u64_lt (self : Wyhash) (hb : self.BF) (x : Nat) (hx : x < 2 ^ 64) :
    self.hash_1u64 x < 2 ^ 64 := by
  refine finish_lt self hb _ _ _ _ ?_ hx hb.1 (by norm_num)
  refine Nat.or_lt_two_pow ?_ ?_
  · rw [M64_eq]
    exact Nat.mod_lt _ (by norm_num)
  · rw [Nat.shiftRight_eq_div_pow]
    omega

theorem hash_2u64_lt (self : Wyhash) (hb : self.BF) (x y : Nat)
    (hx : x < 2 ^ 64) (hy : y < 2 ^ 64) : self.hash_2u64 x y < 2 ^ 64 := by
  refine finish_lt self hb _ _ _ _ ?_ ?_ hb.1 (by norm_num)
  · refine Nat.or_lt_two_pow ?_ ?_
    · rw [M64_eq]
      exact Nat.mod_lt _ (by norm_num)
    · exact lt_of_le_of_lt (Nat.and_le_right) (by norm_num)
  · refine Nat.or_lt_two_pow ?_ ?_
    · exact lt_of_le_of_lt (Nat.and_le_left) hy
    · rw [Nat.shiftRight_eq_div_pow]
      omega

theorem hash_3u64_lt (self : Wyhash) (hb : self.BF) (x y z : Nat)
    (hx : x < 2 ^ 64) (hy : y < 2 ^ 64) (hz : z < 2 ^ 64) :
    self.hash_3u64 x y z < 2 ^ 64 :=
  finish_lt self hb _ _ _ _ hy hz
    (wymix_lt _ _ (Nat.xor_lt_two_pow hx hb.2.2.1) (Nat.xor_lt_two_pow hy hb.1))
    (by norm_num)

theorem hash_4u64_lt (self : Wyhash) (hb : self.BF) (x y z w : Nat)
    (hx : x < 2 ^ 64) (hy : y < 2 ^ 64) (hz : z < 2 ^ 64) (hw : w < 2 ^ 64) :
    self.hash_4u64 x y z w < 2 ^ 64 :=
  finish_lt self hb _ _ _ _ hz hw
    (wymix_lt _ _ (Nat.xor_lt_two_pow hx hb.2.2.1) (Nat.xor_lt_two_pow hy hb.1))
    (by norm_num)

theorem readU32_lt (bs : List Nat) (h : ∀ b ∈ bs, b < 256) (k : Nat) :
    readU32 bs k < 2 ^ 32 := by
  simp only [readU32]
  have h0 := getD_lt_256 bs h k
  have h1 := getD_lt_256 bs h (k + 1)
  have h2 := getD_lt_256 bs h (k + 2)
  have h3 := getD_lt_256 bs h (k + 3)
  omega

theorem bulkLoop_lt (self : Wyhash) (hb : self.BF) (bs : List Nat)
    (hbytes : ∀ b ∈ bs, b < 256) :
    ∀ (fuel : Nat) (st : Nat × Nat × Nat × Nat × Nat),
      st.2.2.1 < 2 ^ 64 → st.2.2.2.1 < 2 ^ 64 → st.2.2.2.2 < 2 ^ 64 →
      (self.bulkLoop bs fuel st).2.2.1 < 2 ^ 64 ∧
        (self.bulkLoop bs fuel st).2.2.2.1 < 2 ^ 64 ∧
        (self.bulkLoop bs fuel st).2.2.2.2 < 2 ^ 64 := by
  intro fuel
  induction fuel with
  | zero =>
    intro st h1 h2 h3
    exact ⟨h1, h2, h3⟩
  | succ f ih =>
    intro st h1 h2 h3
    obtain ⟨offset, remaining, s, s1, s2⟩ := st
    simp only at h1 h2 h3
    rw [Wyhash.bulkLoop]
    by_cases hc : 48 ≤ remaining
    · rw [if_pos hc]
      refine ih _ ?_ ?_ ?_
      · exact wymix_lt _ _ (Nat.xor_lt_two_pow (readU64_lt bs hbytes _) hb.2.2.1)
          (Nat.xor_lt_two_pow (readU64_lt bs hbytes _) h1)
      · exact wymix_lt _ _ (Nat.xor_lt_two_pow (readU64_lt bs hbytes _) hb.2.2.2.1)
          (Nat.xor_lt_two_pow (readU64_lt bs hbytes _) h2)
      · exact wymix_lt _ _ (Nat.xor_lt_two_pow (readU64_lt bs hbytes _) hb.2.2.2.2)
          (Nat.xor_lt_two_pow (readU64_lt bs hbytes _) h3)
    · rw [if_neg hc]
      exact ⟨h1, h2, h3⟩

theorem tailLoop_lt (self : Wyhash) (hb : self.BF) (bs : List Nat)
    (hbytes : ∀ b ∈ bs, b < 256) :
    ∀ (fuel : Nat) (st : Nat × Nat × Nat), st.2.2 < 2 ^ 64 →
      (self.tailLoop bs fuel st).2.2 < 2 ^ 64 := by
  intro fuel
  induction fuel with
  | zero =>
    intro st h1
    exact h1
  | succ f ih =>
    intro st h1
    obtain ⟨offset, remaining, s⟩ := st
    simp only at h1
    rw [Wyhash.tailLoop]
    by_cases hc : 16 < remaining
    · rw [if_pos hc]
      exact ih _ (wymix_lt _ _ (Nat.xor_lt_two_pow (readU64_lt bs hbytes _) hb.2.2.1)
        (Nat.xor_lt_two_pow (readU64_lt bs hbytes _) h1))
    · rw [if_neg hc]
      exact h1

theorem hash_bytes_lt (self : Wyhash) (hb : self.BF) (bs : List Nat)
    (hbytes : ∀ b ∈ bs, b < 256) (hlen : bs.length < 2 ^ 64) :
    self.hash_bytes bs < 2 ^ 64 := by
  rw [Wyhash.hash_bytes]
  by_cases h16 : bs.length ≤ 16
  · rw [if_pos h16]
    by_cases h4 : 4 ≤ bs.length
    · rw [if_pos h4]
      have hx := readU32_lt bs hbytes 0
      have hy := readU32_lt bs hbytes ((bs.length >>> 3) <<< 2)
      have hz := readU32_lt bs hbytes (bs.length - 4)
      have hw := readU32_lt bs hbytes (bs.length - 4 - (bs.length >>> 3) <<< 2)
      refine finish_lt self hb _ _ _ _ ?_ ?_ hb.1 hlen
      · refine Nat.or_lt_two_pow ?_ (by omega)
        rw [Nat.shiftLeft_eq]
        omega
      · refine Nat.or_lt_two_pow ?_ (by omega)
        rw [Nat.shiftLeft_eq]
        have := readU32_lt bs hbytes (bs.length - 4)
        omega
    · rw [if_neg h4]
      by_cases h0 : 0 < bs.length
      · rw [if_pos h0]
        have hx := getD_lt_256 bs hbytes 0
        have hy := getD_lt_256 bs hbytes (bs.length >>> 1)
        have hz := getD_lt_256 bs hbytes (bs.length - 1)
        refine finish_lt self hb _ _ _ _ ?_ (by norm_num) hb.1 hlen
        refine Nat.or_lt_two_pow (Nat.or_lt_two_pow ?_ ?_) (by omega) <;>
          rw [Nat.shiftLeft_eq] <;> omega
      · rw [if_neg h0]
        exact finish_lt self hb _ _ _ _ (by norm_num) (by norm_num) hb.1 hlen
  · rw [if_neg h16]
    by_cases h48 : 48 ≤ bs.length
    · rw [if_pos h48]
      rcases hB : self.bulkLoop bs bs.length (0, bs.length, self.seed, self.seed, self.seed)
        with ⟨bo, br, s, s1, s2⟩
      have hb3 := bulkLoop_lt self hb bs hbytes bs.length
        (0, bs.length, self.seed, self.seed, self.seed) hb.1 hb.1 hb.1
      rw [hB] at hb3
      have hs : s ^^^ s1 ^^^ s2 < 2 ^ 64 :=
        Nat.xor_lt_two_pow (Nat.xor_lt_two_pow hb3.1 hb3.2.1) hb3.2.2
      rcases hT : self.tailLoop bs bs.length (bo, br, s ^^^ s1 ^^^ s2) with ⟨o, r, sd⟩
      have ht3 := tailLoop_lt self hb bs hbytes bs.length (bo, br, s ^^^ s1 ^^^ s2) hs
      rw [hT] at ht3
      simp only [hB, hT]
      exact finish_lt self hb _ _ _ _ (readU64_lt bs hbytes _) (readU64_lt bs hbytes _)
        ht3 hlen
    · rw [if_neg h48]
      rcases hT : self.tailLoop bs bs.length (0, bs.length, self.seed) with ⟨o, r, sd⟩
      have ht3 := tailLoop_lt self hb bs hbytes bs.length (0, bs.length, self.seed) hb.1
      rw [hT] at ht3
      simp only [hT]
      exact finish_lt self hb _ _ _ _ (readU64_lt bs hbytes _) (readU64_lt bs hbytes _)
        ht3 hlen

end Wyhash
end Zahir
namespace Zahir

/-! ## Perlin noise (`src/noise/function.rs`, `src/noise/perlin_node.rs`).

`f64::to_bits` and `f64::cos`/`f64::sqrt` are abstracted as function
parameters (`toBits`, `cosF`, `sqrtF`); the gradient tables `GRADIENTS_2D`,
`GRADIENTS_3D` and a `PerlinNode`'s `gradients` pool live in the missing
`src/noise/mod.rs` and are likewise abstract parameters. -/

/-- `f64::floor` on an exact rational. -/
def floorQ (x : ℚ) : ℚ := ((⌊x⌋ : ℤ) : ℚ)

/-- Componentwise difference of two `RealPoint`s. -/
def listSub (a b : List ℚ) : List ℚ := List.zipWith (fun x y => x - y) a b

/-- `RealPoint::dot_prod`: componentwise product folded by
`iter().fold(0.0, |acc, &elem| acc + elem)`. -/
def dotProd (a b : List ℚ) : ℚ :=
  (List.zipWith (fun x y => x * y) a b).foldl (fun acc e => acc + e) 0

/-- The exact rational value of the double `std::f64::consts::SQRT_2`. -/
def SQRT_2_F64 : ℚ := 6369051672525773 / 4503599627370496

/-- `PERLIN_BIAS_2D = 2.0f64 / std::f64::consts::SQRT_2` (division exact in
the rational model). -/
def PERLIN_BIAS_2D : ℚ := 2 / SQRT_2_F64

/-- `PERLIN_BIAS_3D`: the exact rational value of the double literal
`1.1547005383792517`. -/
def PERLIN_BIAS_3D : ℚ := 5200308914369309 / 4503599627370496

/-- `usize::rotate_left(4)` on a 64-bit machine. -/
def rotate_left_4 (x : Nat) : Nat := ((x <<< 4) % 2 ^ 64) ||| (x >>> 60)

/-- `function.rs::vertex_1d`. -/
def vertex_1d (toBits : ℚ → Nat) (hf : Wyhash) (x : ℚ) : ℚ :=
  f64_from_mantissa (hf.hash_1u64 (toBits x)) 0 1

/-- `function.rs::perlin_1d`. -/
def perlin_1d (toBits : ℚ → Nat) (cosF : ℚ → ℚ) (hf : Wyhash) (point : List ℚ) : ℚ :=
  let px := point.getD 0 0
  let ax0 := floorQ px
  let ax1 := ax0 + 1
  let v0 := vertex_1d toBits hf ax0
  let v1 := vertex_1d toBits hf ax1
  let vx := cerp cosF (px - ax0) v0 v1
  smoothstep vx

/-- `function.rs::vertex_2d`, over an abstract 32-entry table `g2`
(`GRADIENTS_2D[hash & 31]`). -/
def vertex_2d (toBits : ℚ → Nat) (g2 : Nat → ℚ × ℚ) (hf : Wyhash)
    (ax ay nx ny : ℚ) : ℚ :=
  let hash := hf.hash_2u64 (toBits ax) (toBits ay)
  let g := g2 (hash &&& 31)
  g.1 * nx + g.2 * ny

/-- `function.rs::perlin_2d`. -/
def perlin_2d (toBits : ℚ → Nat) (g2 : Nat → ℚ × ℚ) (hf : Wyhash)
    (point : List ℚ) : ℚ :=
  let px := point.getD 0 0
  let py := point.getD 1 0
  let ax0 := floorQ px
  let ay0 := floorQ py
  let ax1 := ax0 + 1
  let ay1 := ay0 + 1
  let nx0 := px - ax0
  let ny0 := py - ay0
  let nx1 := nx0 - 1
  let ny1 := ny0 - 1
  let v00 := vertex_2d toBits g2 hf ax0 ay0 nx0 ny0
  let v10 := vertex_2d toBits g2 hf ax1 ay0 nx1 ny0
  let v01 := vertex_2d toBits g2 hf ax0 ay1 nx0 ny1
  let v11 := vertex_2d toBits g2 hf ax1 ay1 nx1 ny1
  let sx := smoothstep nx0
  let sy := smoothstep ny0
  let vx0 := lerp sx v00 v10
  let vx1 := lerp sx v01 v11
  let vxy := lerp sy vx0 vx1
  smoothstep (neg_unit_to_unit (vxy * PERLIN_BIAS_2D))

/-- `function.rs::vertex_3d`, over an abstract 16-entry table `g3`
(`GRADIENTS_3D[hash.rotate_left(4) & 15]`). -/
def vertex_3d (toBits : ℚ → Nat) (g3 : Nat → ℚ × ℚ × ℚ) (hf : Wyhash)
    (ax ay az nx ny nz : ℚ) : ℚ :=
  let hash := hf.hash_3u64 (toBits ax) (toBits ay) (toBits az)
  let g := g3 (rotate_left_4 hash &&& 15)
  g.1 * nx + g.2.1 * ny + g.2.2 * nz

/-- `function.rs::perlin_3d`. -/
def perlin_3d (toBits : ℚ → Nat) (g3 : Nat → ℚ × ℚ × ℚ) (hf : Wyhash)
    (point : List ℚ) : ℚ :=
  let px := point.getD 0 0
  let py := point.getD 1 0
  let pz := point.getD 2 0
  let ax0 := floorQ px
  let ay0 := floorQ py
  let az0 := floorQ pz
  let ax1 := ax0 + 1
  let ay1 := ay0 + 1
  let az1 := az0 + 1
  let nx0 := px - ax0
  let ny0 := py - ay0
  let nz0 := pz - az0
  let nx1 := nx0 - 1
  let ny1 := ny0 - 1
  let nz1 := nz0 - 1
  let v000 := vertex_3d toBits g3 hf ax0 ay0 az0 nx0 ny0 nz0
  let v100 := vertex_3d toBits g3 hf ax1 ay0 az0 nx1 ny0 nz0
  let v010 := vertex_3d toBits g3 hf ax0 ay1 az0 nx0 ny1 nz0
  let v110 := vertex_3d toBits g3 hf ax1 ay1 az0 nx1 ny1 nz0
  let v001 := vertex_3d toBits g3 hf ax0 ay0 az1 nx0 ny0 nz1
  let v101 := vertex_3d toBits g3 hf ax1 ay0 az1 nx1 ny0 nz1
  let v011 := vertex_3d toBits g3 hf ax0 ay1 az1 nx0 ny1 nz1
  let v111 := vertex_3d toBits g3 hf ax1 ay1 az1 nx1 ny1 nz1
  let sx := smoothstep nx0
  let sy := smoothstep ny0
  let sz := smoothstep nz0
  let vx00 := lerp sx v000 v100
  let vx10 := lerp sx v010 v110
  let vx01 := lerp sx v001 v101
  let vx11 := lerp sx v011 v111
  let vxy0 := lerp sy vx00 vx10
  let vxy1 := lerp sy vx01 vx11
  let vxyz := lerp sz vxy0 vxy1
  smoothstep (neg_unit_to_unit (vxyz * PERLIN_BIAS_3D))

/-- `PerlinNode::NUM_GRADIENTS = 2^(DIM + 3)`. -/
def PerlinNode.NUM_GRADIENTS (DIM : Nat) : Nat := 2 ^ (DIM + 3)

/-- `RealPoint::as_bytes` on a little-endian machine: the concatenated
little-endian images of the coordinates' `f64::to_bits`. -/
def realPointBytes (toBits : ℚ → Nat) (p : List ℚ) : List Nat :=
  (p.map (fun c => u64le (toBits c))).flatten

/-- `PerlinNode::noise_value_for`, over an abstract gradients pool
(`self.gradients[hash % Self::NUM_GRADIENTS]`). -/
def noise_value_for (hf : Wyhash) (toBits : ℚ → Nat) (gradients : Nat → List ℚ)
    (DIM : Nat) (point vertex : List ℚ) : ℚ :=
  let hash := hf.hash_bytes (realPointBytes toBits vertex)
  let gradient := gradients (hash % PerlinNode.NUM_GRADIENTS DIM)
  dotProd (listSub vertex point) gradient

/-- `VertexNeighborhood` (`src/geometry/vertex_neighborhood.rs`), run to
exhaustion: vertex `idx < 2^DIM` offsets the floored origin by 1 in every
dimension whose bit is set in `idx`. -/
def vertexNeighborhood (DIM : Nat) (point : List ℚ) : List (List ℚ) :=
  (List.range (2 ^ DIM)).map (fun idx =>
    (List.range DIM).map (fun dim =>
      floorQ (point.getD dim 0) + if 0 < idx &&& (1 <<< dim) then 1 else 0))

/-- One pass of `noise_values.iter().tuples().map(|(&lhs, &rhs)| lerp ...)`:
consecutive disjoint pairs are interpolated, an unpaired trailing element is
dropped. -/
def pairLerp (bias : ℚ) : List ℚ → List ℚ
  | lhs :: rhs :: rest => lerp bias lhs rhs :: pairLerp bias rest
  | _ => []

/-- `PerlinNode::unbias`: `(x * 2.0) / (DIM as f64).sqrt()`. -/
def PerlinNode.unbias (sqrtF : ℚ → ℚ) (DIM : Nat) (x : ℚ) : ℚ :=
  x * 2 / sqrtF (DIM : ℚ)

/-- `PerlinNode`'s `default fn value_at` (the generic fallback): vertex noise
values, per-dimension `lerp` folding by the smoothed fractional coordinates,
then unbias and resmoothing. -/
def PerlinNode.value_at_default (hf : Wyhash) (gradients : Nat → List ℚ)
    (toBits : ℚ → Nat) (sqrtF : ℚ → ℚ) (DIM : Nat) (point : List ℚ) : ℚ :=
  let noise_values := (vertexNeighborhood DIM point).map
    (fun vertex => noise_value_for hf toBits gradients DIM point vertex)
  let smoothed := (listSub point (point.map floorQ)).map smoothstep
  let final := smoothed.foldl (fun vals bias => pairLerp bias vals) noise_values
  smoothstep (neg_unit_to_unit (PerlinNode.unbias sqrtF DIM (final.getD 0 0)))

end Zahir
namespace Zahir

theorem vertexNeighborhood_one (px : ℚ) :
    vertexNeighborhood 1 [px] = [[floorQ px], [floorQ px + 1]] := by
  norm_num [vertexNeighborhood, List.range_succ]

theorem vertexNeighborhood_two (px py : ℚ) :
    vertexNeighborhood 2 [px, py] =
      [[floorQ px, floorQ py], [floorQ px + 1, floorQ py],
       [floorQ px, floorQ py + 1], [floorQ px + 1, floorQ py + 1]] := by
  norm_num [vertexNeighborhood, List.range_succ]
  decide

theorem dotProd_zero_head (g : List ℚ) : dotProd [0] g = 0 := by
  cases g <;> simp [dotProd]

theorem smoothstep_zero : smoothstep 0 = 0 := by norm_num [smoothstep]

theorem smoothstep_half : smoothstep (1 / 2) = 1 / 2 := by norm_num [smoothstep]

theorem lerp_zero_bias (a b : ℚ) : lerp 0 a b = a := by simp [lerp]

theorem noise_value_for_two (hf : Wyhash) (toBits : ℚ → Nat) (g2 : Nat → ℚ × ℚ)
    (gradients : Nat → List ℚ) (htb : ∀ x, toBits x < 2 ^ 64)
    (hg : ∀ k, gradients k = [-(g2 k).1, -(g2 k).2]) (px py ax ay : ℚ) :
    noise_value_for hf toBits gradients 2 [px, py] [ax, ay] =
      vertex_2d toBits g2 hf ax ay (px - ax) (py - ay) := by
  rw [noise_value_for, vertex_2d]
  have hbytes : realPointBytes toBits [ax, ay] = u64le (toBits ax) ++ u64le (toBits ay) := by
    simp [realPointBytes]
  rw [hbytes, ← Wyhash.hash_2u64_eq_bytes hf (toBits ax) (toBits ay) (htb ax) (htb ay),
    show PerlinNode.NUM_GRADIENTS 2 = 2 ^ 5 from rfl,
    ← Nat.and_pow_two_sub_one_eq_mod (hf.hash_2u64 (toBits ax) (toBits ay)) 5,
    show (2 : Nat) ^ 5 - 1 = 31 from rfl, hg]
  simp only [listSub, List.zipWith, dotProd, List.foldl]
  ring

theorem value_at_default_one_int (hf : Wyhash) (gr : Nat → List ℚ)
    (toBits : ℚ → Nat) (sq : ℚ → ℚ) (n : ℤ) :
    PerlinNode.value_at_default hf gr toBits sq 1 [(n : ℚ)] = 1 / 2 := by
  rw [PerlinNode.value_at_default, vertexNeighborhood_one]
  have hw0 : noise_value_for hf toBits gr 1 [(n : ℚ)] [floorQ (n : ℚ)] = 0 := by
    rw [noise_value_for]
    have : listSub [floorQ (n : ℚ)] [(n : ℚ)] = [0] := by
      simp [listSub, floorQ]
    rw [this, dotProd_zero_head]
  have hsm : smoothstep ((n : ℚ) - floorQ (n : ℚ)) = 0 := by
    simp [floorQ, smoothstep_zero]
  simp only [List.map_cons, List.map_nil, listSub, List.zipWith, List.foldl,
    hw0, hsm, pairLerp, lerp_zero_bias, List.getD_cons_zero,
    PerlinNode.unbias]
  rw [zero_mul, zero_div]
  rw [show neg_unit_to_unit 0 = 1 / 2 from by norm_num [neg_unit_to_unit],
    smoothstep_half]

/-- C3 (amended): with the generic fallback exercised over the gradient-pool
convention that matches the 2D specialization (pool entry `k` is the negation
of `GRADIENTS_2D[k]`, so that `& 31` indexing coincides with `% 32`, and
`sqrt(2)` evaluating to `SQRT_2`), the generic `PerlinNode::value_at` default
agrees exactly with `perlin_2d` at every 2D point; for DIM = 1 no such
convention exists: the generic evaluator returns the constant `1/2` at every
integer input, for every gradient pool and square-root function, while
`perlin_1d` is cosine-interpolated value noise that varies with the hash. -/
theorem C3_perlin_specialization (hf : Wyhash) (toBits : ℚ → Nat)
    (g2 : Nat → ℚ × ℚ) (gradients : Nat → List ℚ) (sqrtF : ℚ → ℚ)
    (htb : ∀ x, toBits x < 2 ^ 64)
    (hg : ∀ k, gradients k = [-(g2 k).1, -(g2 k).2])
    (hs : sqrtF 2 = SQRT_2_F64) :
    (∀ px py : ℚ,
      PerlinNode.value_at_default hf gradients toBits sqrtF 2 [px, py] =
        perlin_2d toBits g2 hf [px, py]) ∧
    (∀ (gr : Nat → List ℚ) (sq : ℚ → ℚ) (n : ℤ),
      PerlinNode.value_at_default hf gr toBits sq 1 [(n : ℚ)] = 1 / 2) := by
  constructor
  · intro px py
    have h00 := noise_value_for_two hf toBits g2 gradients htb hg px py
      (floorQ px) (floorQ py)
    have h10 := noise_value_for_two hf toBits g2 gradients htb hg px py
      (floorQ px + 1) (floorQ py)
    have h01 := noise_value_for_two hf toBits g2 gradients htb hg px py
      (floorQ px) (floorQ py + 1)
    have h11 := noise_value_for_two hf toBits g2 gradients htb hg px py
      (floorQ px + 1) (floorQ py + 1)
    rw [show px - (floorQ px + 1) = px - floorQ px - 1 from by ring] at h10 h11
    rw [show py - (floorQ py + 1) = py - floorQ py - 1 from by ring] at h01 h11
    rw [PerlinNode.value_at_default, vertexNeighborhood_two]
    simp only [List.map_cons, List.map_nil, listSub, List.zipWith, pairLerp,
      List.foldl, List.getD_cons_zero, PerlinNode.unbias, Nat.cast_ofNat,
      h00, h10, h01, h11]
    rw [perlin_2d]
    simp only [List.getD_cons_zero, List.getD_cons_succ]
    rw [hs]
    congr 1
    rw [neg_unit_to_unit, neg_unit_to_unit, PERLIN_BIAS_2D]
    ring
  · intro gr sq n
    exact value_at_default_one_int hf gr toBits sq n

/-- A concrete executable stand-in for `f64::to_bits` on the floats `0.0` and
`1.0` (`1.0f64.to_bits() = 0x3FF0000000000000`). -/
def toBits0 : ℚ → Nat := fun x => if x = 1 then 4607182418800017408 else 0

/-- A concrete 2D gradient table. -/
def g20 : Nat → ℚ × ℚ := fun _ => (1, 1)

/-- The generic pool matching `g20` under the negation convention. -/
def gradients0 : Nat → List ℚ := fun _ => [-1, -1]

/-- A concrete square-root stand-in agreeing with `SQRT_2` at 2. -/
def sqrtF0 : ℚ → ℚ := fun _ => SQRT_2_F64

/-- A concrete cosine stand-in with `cos 0 = 1`. -/
def cosF0 : ℚ → ℚ := fun _ => 1

theorem C3_perlin_specialization_witness :
    (∀ x, toBits0 x < 2 ^ 64) ∧
    (∀ k, gradients0 k = [-(g20 k).1, -(g20 k).2]) ∧
    sqrtF0 2 = SQRT_2_F64 ∧
    PerlinNode.value_at_default testWyhash gradients0 toBits0 sqrtF0 2
        [0, 0] = perlin_2d toBits0 g20 testWyhash [0, 0] ∧
    PerlinNode.value_at_default testWyhash gradients0 toBits0 sqrtF0 1
        [((0 : ℤ) : ℚ)] = 1 / 2 :=
  ⟨fun x => by rw [toBits0]; split <;> norm_num,
   fun k => by norm_num [gradients0, g20],
   rfl,
   (C3_perlin_specialization testWyhash toBits0 g20 gradients0 sqrtF0
     (fun x => by rw [toBits0]; split <;> norm_num)
     (fun k => by norm_num [gradients0, g20]) rfl).1 0 0,
   (C3_perlin_specialization testWyhash toBits0 g20 gradients0 sqrtF0
     (fun x => by rw [toBits0]; split <;> norm_num)
     (fun k => by norm_num [gradients0, g20]) rfl).2 gradients0 sqrtF0 0⟩

/-- The original C3 claim fails at DIM = 1: at the integer point `0` the
generic fallback returns `1/2` (for every pool convention), while `perlin_1d`
returns `smoothstep` of a hash-derived value, here `≠ 1/2`. -/
theorem C3_perlin_specialization_counterexample :
    PerlinNode.value_at_default testWyhash gradients0 toBits0 sqrtF0 1
        [(0 : ℚ)] = 1 / 2 ∧
    perlin_1d toBits0 cosF0 testWyhash [(0 : ℚ)] ≠ 1 / 2 := by
  constructor
  · have h := value_at_default_one_int testWyhash gradients0 toBits0 sqrtF0 0
    simpa using h
  · have hh0 : testWyhash.hash_1u64 0 = 6489327490943571740 := by decide
    have hh1 : testWyhash.hash_1u64 4607182418800017408 = 8769608523989335319 := by
      decide
    have hsr0 : (6489327490943571740 : Nat) >>> 12 = 1584308469468645 := by decide
    have hsr1 : (8769608523989335319 : Nat) >>> 12 = 2141017706052083 := by decide
    norm_num [perlin_1d, vertex_1d, cerp, f64_from_mantissa, smoothstep, floorQ,
      toBits0, cosF0, neg_unit_to_unit, lerp, hh0, hh1, hsr0, hsr1]

end Zahir
namespace Zahir

/-! ## `TileNode` (`src/noise/tile_node.rs`) and `WorleyNode`
(`src/noise/worley_node.rs`).

The `ChaCha8Rng` block cipher is abstracted as a function `chacha` from
`(key, stream, word_pos)` to the next `u64` output; the modelled rng state
carries the seed-derived key together with the `set_stream` /
`set_word_pos`-settable position, and `next_u64` advances the position by the
two 32-bit words it consumes. `DistanceMetric::magnitude` and
`hypercube_diagonal_magnitude` are abstract parameters (`metric`, `diag`). -/

/-- `TileNode::value_at` (all `NoiseNode<DIM>` impls): the floored point is
hashed with the fixed-arity hasher for `DIM ∈ {1,2,3,4}` and with
`hash_bytes` over the floored coordinates' bytes otherwise, then mapped into
`[0, 1)` by `f64_from_mantissa(hash, 0.0, 1.0)`. -/
def TileNode.value_at (hf : Wyhash) (toBits : ℚ → Nat) (point : List ℚ) : ℚ :=
  let p := point.map floorQ
  let hash :=
    match p with
    | [a] => hf.hash_1u64 (toBits a)
    | [a, b] => hf.hash_2u64 (toBits a) (toBits b)
    | [a, b, c] => hf.hash_3u64 (toBits a) (toBits b) (toBits c)
    | [a, b, c, d] => hf.hash_4u64 (toBits a) (toBits b) (toBits c) (toBits d)
    | _ => hf.hash_bytes (realPointBytes toBits p)
  f64_from_mantissa hash 0 1

/-- Little-endian serialization of an `i32` (two's complement). -/
def i32le (x : Int) : List Nat := u32le (x % 2 ^ 32).toNat

/-- `Point::as_bytes` on a little-endian machine. -/
def pointBytes (p : List Int) : List Nat := (p.map i32le).flatten

/-- `f64 as i32` (saturating) composed with `f64::floor`. -/
def floorToI32 (x : ℚ) : Int := max (-(2 ^ 31)) (min (2 ^ 31 - 1) ⌊x⌋)

/-- `RealPoint::to_lattice_point`. -/
def to_lattice_point (p : List ℚ) : List Int := p.map floorToI32

/-- The modelled `ChaCha8Rng` cell: seed-derived key, stream and word
position. -/
structure ChaChaRng where
  key : Nat
  stream : Nat
  word_pos : Nat

/-- `RngCore::next_u64` over the abstract block function. -/
def ChaChaRng.next_u64 (chacha : Nat → Nat → Nat → Nat) (r : ChaChaRng) :
    Nat × ChaChaRng :=
  (chacha r.key r.stream r.word_pos, ⟨r.key, r.stream, r.word_pos + 2⟩)

/-- The `for dim in 0..DIM` loop of `hypercube_seed_point`: one `next_u64`
draw per coordinate, offsetting `real_hypercube[dim]` into its cell. -/
def drawCoords (chacha : Nat → Nat → Nat → Nat) :
    List ℚ → ChaChaRng → List ℚ × ChaChaRng
  | [], r => ([], r)
  | c :: rest, r =>
    let d := ChaChaRng.next_u64 chacha r
    let tail := drawCoords chacha rest d.2
    ((c + f64_from_mantissa d.1 0 1) :: tail.1, tail.2)

/-- `WorleyNode::hypercube_seed_point`: hash the hypercube's bytes, reset the
rng (`set_word_pos(0)`, `set_stream(hash)`), then draw one offset per
dimension; returns the seed point, the hash and the mutated rng cell. -/
def hypercube_seed_point (chacha : Nat → Nat → Nat → Nat) (hf : Wyhash)
    (r : ChaChaRng) (hypercube : List Int) : (List ℚ × Nat) × ChaChaRng :=
  let real_hypercube := hypercube.map (fun c => (c : ℚ))
  let hash := hf.hash_bytes (pointBytes hypercube)
  let rng : ChaChaRng := ⟨r.key, hash, 0⟩
  let drawn := drawCoords chacha real_hypercube rng
  ((drawn.1, hash), drawn.2)

/-- `WorleyPaintMethod`. -/
inductive WorleyPaintMethod where
  | Value
  | Distance

/-- The candidate collection of `WorleyNode::value_at`: the `map` over
`neighbors_and_self()` threads the shared rng cell in iteration order and
yields `(seed_value, distance)` pairs. -/
def collectCandidates (chacha : Nat → Nat → Nat → Nat) (hf : Wyhash)
    (metric : List ℚ → ℚ) (point : List ℚ) :
    List (List Int) → ChaChaRng → List (Nat × ℚ) × ChaChaRng
  | [], r => ([], r)
  | hc :: rest, r =>
    let s := hypercube_seed_point chacha hf r hc
    let distance := metric (listSub s.1.1 point)
    let tail := collectCandidates chacha hf metric point rest s.2
    ((s.1.2, distance) :: tail.1, tail.2)

/-- `WorleyNode::value_at`: collect candidates over the lattice neighborhood,
sort by the stable `sort_by(|a, b| rhs.partial_cmp(lhs))` (descending by
distance), `pop` the nearest (and for `Distance` the second-nearest), and
paint. Returns the value together with the mutated rng cell. -/
def WorleyNode.value_at (chacha : Nat → Nat → Nat → Nat) (hf : Wyhash)
    (metric : List ℚ → ℚ) (diag : ℚ) (paint : WorleyPaintMethod)
    (r : ChaChaRng) (point : List ℚ) : ℚ × ChaChaRng :=
  let hypercubes := latticeNeighborhood point.length (to_lattice_point point) true
  let c := collectCandidates chacha hf metric point hypercubes r
  let sorted := List.insertionSort (fun a b => b.2 ≤ a.2) c.1
  let nearest := sorted.getLastD (0, 0)
  let value :=
    match paint with
    | .Value => f64_from_mantissa nearest.1 0 1
    | .Distance => ((sorted.dropLast.getLastD (0, 0)).2 - nearest.2) / diag
  (value, c.2)

end Zahir
namespace Zahir

theorem u32le_mem_lt (x : Nat) : ∀ b ∈ u32le x, b < 256 := by
  intro b hb
  simp only [u32le, List.mem_cons, List.not_mem_nil, or_false] at hb
  rcases hb with h | h | h | h <;> subst h <;> exact Nat.mod_lt _ (by norm_num)

theorem u64le_mem_lt (x : Nat) : ∀ b ∈ u64le x, b < 256 := by
  intro b hb
  simp only [u64le, List.mem_cons, List.not_mem_nil, or_false] at hb
  rcases hb with h | h | h | h | h | h | h | h <;> subst h <;>
    exact Nat.mod_lt _ (by norm_num)

theorem pointBytes_mem_lt (p : List Int) : ∀ b ∈ pointBytes p, b < 256 := by
  intro b hb
  rw [pointBytes] at hb
  obtain ⟨l, hl, hbl⟩ := List.mem_flatten.mp hb
  obtain ⟨c, _, hcl⟩ := List.mem_map.mp hl
  rw [← hcl] at hbl
  exact u32le_mem_lt _ b hbl

theorem pointBytes_length (p : List Int) : (pointBytes p).length = 4 * p.length := by
  induction p with
  | nil => rfl
  | cons c rest ih =>
    simp only [pointBytes, List.map_cons, List.flatten_cons, List.length_append,
      List.length_cons]
    rw [show (i32le c).length = 4 from rfl]
    rw [pointBytes] at ih
    omega

theorem realPointBytes_mem_lt (toBits : ℚ → Nat) (p : List ℚ) :
    ∀ b ∈ realPointBytes toBits p, b < 256 := by
  intro b hb
  rw [realPointBytes] at hb
  obtain ⟨l, hl, hbl⟩ := List.mem_flatten.mp hb
  obtain ⟨c, _, hcl⟩ := List.mem_map.mp hl
  rw [← hcl] at hbl
  exact u64le_mem_lt _ b hbl

theorem realPointBytes_length (toBits : ℚ → Nat) (p : List ℚ) :
    (realPointBytes toBits p).length = 8 * p.length := by
  induction p with
  | nil => rfl
  | cons c rest ih =>
    simp only [realPointBytes, List.map_cons, List.flatten_cons,
      List.length_append, List.length_cons]
    rw [u64le_length]
    rw [realPointBytes] at ih
    omega

theorem getLastD_mem (l : List α) (d : α) (h : l ≠ []) : l.getLastD d ∈ l := by
  induction l with
  | nil => exact absurd rfl h
  | cons a rest ih =>
    cases rest with
    | nil => simp [List.getLastD]
    | cons b r2 =>
      rw [List.getLastD_cons]
      exact List.mem_cons_of_mem a (ih (by simp))

theorem f64_from_mantissa_mem (m : Nat) (mn mx : ℚ) (hm : m < 2 ^ 64)
    (h : mn < mx) : f64_from_mantissa m mn mx ∈ Set.Ico mn mx := by
  have hs : m >>> 12 < 2 ^ 52 := by
    rw [Nat.shiftRight_eq_div_pow]
    omega
  have h0 : (0 : ℚ) ≤ ((m >>> 12 : Nat) : ℚ) := Nat.cast_nonneg _
  have h1 : ((m >>> 12 : Nat) : ℚ) < 2 ^ 52 := by exact_mod_cast hs
  rw [f64_from_mantissa]
  constructor
  · nlinarith [mul_nonneg (div_nonneg h0 (by norm_num : (0:ℚ) ≤ 2 ^ 52))
      (le_of_lt (sub_pos.mpr h))]
  · have hd : ((m >>> 12 : Nat) : ℚ) / 2 ^ 52 < 1 := by
      rw [div_lt_one (by norm_num : (0:ℚ) < 2 ^ 52)]
      exact h1
    nlinarith [mul_lt_mul_of_pos_right hd (sub_pos.mpr h)]

theorem latticeNeighborhood_mem_length (DIM : Nat) (origin : List Int) :
    ∀ hc ∈ latticeNeighborhood DIM origin true, hc.length = DIM := by
  intro hc hmem
  rw [latticeNeighborhood_include] at hmem
  obtain ⟨k, _, hk⟩ := List.mem_map.mp hmem
  rw [← hk, latticePoint, List.length_map, List.length_range]

theorem collectCandidates_fst_lt (chacha : Nat → Nat → Nat → Nat)
    (hf : Wyhash) (hb : hf.BF) (metric : List ℚ → ℚ) (point : List ℚ) :
    ∀ (hcs : List (List Int)) (r : ChaChaRng),
      (∀ hc ∈ hcs, 4 * hc.length < 2 ^ 64) →
      ∀ c ∈ (collectCandidates chacha hf metric point hcs r).1, c.1 < 2 ^ 64 := by
  intro hcs
  induction hcs with
  | nil =>
    intro r _ c hc
    simp [collectCandidates] at hc
  | cons hc0 rest ih =>
    intro r hlen c hc
    rw [collectCandidates] at hc
    simp only [List.mem_cons] at hc
    rcases hc with h | h
    · rw [h]
      show hf.hash_bytes (pointBytes hc0) < 2 ^ 64
      refine Wyhash.hash_bytes_lt hf hb _ (pointBytes_mem_lt hc0) ?_
      rw [pointBytes_length]
      exact hlen hc0 (List.mem_cons_self hc0 rest)
    · exact ih _ (fun x hx => hlen x (List.mem_cons_of_mem hc0 hx)) c h

/-- C10: `f64_from_mantissa(bits, min, max)` lies in `[min, max)` for every
64-bit input and `min < max`; consequently `TileNode::value_at` (every DIM)
and `WorleyNode::value_at` in `Value` paint mode always lie in `[0, 1)` and
never reach `1.0`. -/
theorem C10_f64_from_mantissa_range :
    (∀ (mantissa : Nat) (mn mx : ℚ), mantissa < 2 ^ 64 → mn < mx →
      f64_from_mantissa mantissa mn mx ∈ Set.Ico mn mx) ∧
    (∀ (hf : Wyhash) (toBits : ℚ → Nat) (point : List ℚ), hf.BF →
      (∀ x, toBits x < 2 ^ 64) → 8 * point.length < 2 ^ 64 →
      TileNode.value_at hf toBits point ∈ Set.Ico (0 : ℚ) 1) ∧
    (∀ (chacha : Nat → Nat → Nat → Nat) (hf : Wyhash) (metric : List ℚ → ℚ)
      (diag : ℚ) (r : ChaChaRng) (point : List ℚ), hf.BF →
      4 * point.length < 2 ^ 64 →
      (WorleyNode.value_at chacha hf metric diag .Value r point).1 ∈
        Set.Ico (0 : ℚ) 1) := by
  refine ⟨fun m mn mx hm h => f64_from_mantissa_mem m mn mx hm h, ?_, ?_⟩
  · intro hf toBits point hb htb hlen
    rcases point with _ | ⟨a, _ | ⟨b, _ | ⟨c, _ | ⟨d, _ | ⟨e, rest⟩⟩⟩⟩⟩ <;>
      simp only [TileNode.value_at, List.map_cons, List.map_nil] <;>
      refine f64_from_mantissa_mem _ 0 1 ?_ (by norm_num)
    · refine Wyhash.hash_bytes_lt hf hb _ (realPointBytes_mem_lt toBits _) ?_
      rw [realPointBytes_length]
      norm_num
    · exact Wyhash.hash_1u64_lt hf hb _ (htb _)
    · exact Wyhash.hash_2u64_lt hf hb _ _ (htb _) (htb _)
    · exact Wyhash.hash_3u64_lt hf hb _ _ _ (htb _) (htb _) (htb _)
    · exact Wyhash.hash_4u64_lt hf hb _ _ _ _ (htb _) (htb _) (htb _) (htb _)
    · refine Wyhash.hash_bytes_lt hf hb _ (realPointBytes_mem_lt toBits _) ?_
      rw [realPointBytes_length]
      simpa using hlen
  · intro chacha hf metric diag r point hb hlen
    simp only [WorleyNode.value_at]
    refine f64_from_mantissa_mem _ 0 1 ?_ (by norm_num)
    set cands := (collectCandidates chacha hf metric point
      (latticeNeighborhood point.length (to_lattice_point point) true) r).1
      with hcands
    set sorted := List.insertionSort (fun a b => b.2 ≤ a.2) cands with hsorted
    by_cases hnil : sorted = []
    · rw [hnil]
      norm_num [List.getLastD]
    · have hmem := getLastD_mem sorted (0, 0) hnil
      rw [hsorted] at hmem
      have hmem2 : sorted.getLastD (0, 0) ∈ cands :=
        (List.perm_insertionSort (fun a b => b.2 ≤ a.2) cands).subset hmem
      refine collectCandidates_fst_lt chacha hf hb metric point _ r
        (fun hc hhc => ?_) _ hmem2
      rw [latticeNeighborhood_mem_length point.length (to_lattice_point point)
        hc hhc]
      exact hlen

/-- A trivial stand-in for the abstract ChaCha8 block function. -/
def chacha0 : Nat → Nat → Nat → Nat := fun _ _ _ => 0

/-- A trivial distance metric stand-in. -/
def metric0 : List ℚ → ℚ := fun _ => 0

/-- A concrete rng cell. -/
def rng0 : ChaChaRng := ⟨0, 0, 0⟩

theorem testWyhash_BF : testWyhash.BF := by
  unfold Wyhash.BF
  decide

theorem C10_f64_from_mantissa_range_witness :
    f64_from_mantissa 3 0 2 ∈ Set.Ico (0 : ℚ) 2 ∧
    TileNode.value_at testWyhash toBits0 [0] ∈ Set.Ico (0 : ℚ) 1 ∧
    (WorleyNode.value_at chacha0 testWyhash metric0 1 .Value rng0 [0]).1 ∈
      Set.Ico (0 : ℚ) 1 :=
  ⟨C10_f64_from_mantissa_range.1 3 0 2 (by norm_num) (by norm_num),
   C10_f64_from_mantissa_range.2.1 testWyhash toBits0 [0] testWyhash_BF
     (fun x => by rw [toBits0]; split <;> norm_num) (by norm_num),
   C10_f64_from_mantissa_range.2.2 chacha0 testWyhash metric0 1 rng0 [0]
     testWyhash_BF (by norm_num)⟩

end Zahir
namespace Zahir

theorem drawCoords_key (chacha : Nat → Nat → Nat → Nat) :
    ∀ (cs : List ℚ) (r : ChaChaRng), (drawCoords chacha cs r).2.key = r.key := by
  intro cs
  induction cs with
  | nil =>
    intro r
    rfl
  | cons c rest ih =>
    intro r
    rw [drawCoords]
    exact ih _

theorem hypercube_seed_point_key (chacha : Nat → Nat → Nat → Nat)
    (hf : Wyhash) (r : ChaChaRng) (hc : List Int) :
    (hypercube_seed_point chacha hf r hc).2.key = r.key := by
  rw [hypercube_seed_point]
  exact drawCoords_key chacha _ _

theorem hypercube_seed_point_congr (chacha : Nat → Nat → Nat → Nat)
    (hf : Wyhash) (hc : List Int) (r1 r2 : ChaChaRng) (h : r1.key = r2.key) :
    hypercube_seed_point chacha hf r1 hc = hypercube_seed_point chacha hf r2 hc := by
  rw [hypercube_seed_point, hypercube_seed_point, h]

theorem collectCandidates_key (chacha : Nat → Nat → Nat → Nat) (hf : Wyhash)
    (metric : List ℚ → ℚ) (point : List ℚ) :
    ∀ (hcs : List (List Int)) (r : ChaChaRng),
      (collectCandidates chacha hf metric point hcs r).2.key = r.key := by
  intro hcs
  induction hcs with
  | nil =>
    intro r
    rfl
  | cons hc rest ih =>
    intro r
    rw [collectCandidates]
    rw [ih, hypercube_seed_point_key]

theorem collectCandidates_congr (chacha : Nat → Nat → Nat → Nat) (hf : Wyhash)
    (metric : List ℚ → ℚ) (point : List ℚ) :
    ∀ (hcs : List (List Int)) (r1 r2 : ChaChaRng), r1.key = r2.key →
      (collectCandidates chacha hf metric point hcs r1).1 =
        (collectCandidates chacha hf metric point hcs r2).1 := by
  intro hcs
  induction hcs with
  | nil =>
    intro r1 r2 _
    rfl
  | cons hc rest ih =>
    intro r1 r2 h
    rw [collectCandidates, collectCandidates,
      hypercube_seed_point_congr chacha hf hc r1 r2 h]

theorem worley_value_congr (chacha : Nat → Nat → Nat → Nat) (hf : Wyhash)
    (metric : List ℚ → ℚ) (diag : ℚ) (paint : WorleyPaintMethod)
    (point : List ℚ) (r1 r2 : ChaChaRng) (h : r1.key = r2.key) :
    (WorleyNode.value_at chacha hf metric diag paint r1 point).1 =
      (WorleyNode.value_at chacha hf metric diag paint r2 point).1 := by
  simp only [WorleyNode.value_at]
  rw [collectCandidates_congr chacha hf metric point _ r1 r2 h]

theorem worley_value_key (chacha : Nat → Nat → Nat → Nat) (hf : Wyhash)
    (metric : List ℚ → ℚ) (diag : ℚ) (paint : WorleyPaintMethod)
    (point : List ℚ) (r : ChaChaRng) :
    (WorleyNode.value_at chacha hf metric diag paint r point).2.key = r.key := by
  simp only [WorleyNode.value_at]
  exact collectCandidates_key chacha hf metric point _ r

/-- C4: `WorleyNode::value_at` is a pure function of the query position for a
fixed seed key: its result depends on the `ChaCha8Rng` cell only through the
seed-derived key (not the stream or word position left over from earlier
calls), the call leaves the key unchanged, and consequently evaluating the
same position again — with any other call in between — returns a bit-identical
result. (`PerlinNode::value_at` carries no interior mutability at all and is
embedded as a state-free function.) -/
theorem C4_worley_purity (chacha : Nat → Nat → Nat → Nat) (hf : Wyhash)
    (metric : List ℚ → ℚ) (diag : ℚ) (paint : WorleyPaintMethod)
    (point : List ℚ) :
    (∀ r1 r2 : ChaChaRng, r1.key = r2.key →
      (WorleyNode.value_at chacha hf metric diag paint r1 point).1 =
        (WorleyNode.value_at chacha hf metric diag paint r2 point).1) ∧
    (∀ r : ChaChaRng,
      (WorleyNode.value_at chacha hf metric diag paint r point).2.key = r.key) ∧
    (∀ (r : ChaChaRng) (q : List ℚ),
      (WorleyNode.value_at chacha hf metric diag paint
          (WorleyNode.value_at chacha hf metric diag paint r q).2 point).1 =
        (WorleyNode.value_at chacha hf metric diag paint r point).1) := by
  refine ⟨fun r1 r2 h => worley_value_congr chacha hf metric diag paint point r1 r2 h,
    fun r => worley_value_key chacha hf metric diag paint point r,
    fun r q => ?_⟩
  exact worley_value_congr chacha hf metric diag paint point _ r
    (worley_value_key chacha hf metric diag paint q r)

theorem C4_worley_purity_witness :
    (⟨5, 7, 9⟩ : ChaChaRng).key = (⟨5, 0, 0⟩ : ChaChaRng).key ∧
    (WorleyNode.value_at chacha0 testWyhash metric0 1 .Value
        (⟨5, 7, 9⟩ : ChaChaRng) [0]).1 =
      (WorleyNode.value_at chacha0 testWyhash metric0 1 .Value
        (⟨5, 0, 0⟩ : ChaChaRng) [0]).1 ∧
    (WorleyNode.value_at chacha0 testWyhash metric0 1 .Value
        (⟨5, 7, 9⟩ : ChaChaRng) [0]).2.key = 5 ∧
    (WorleyNode.value_at chacha0 testWyhash metric0 1 .Value
        (WorleyNode.value_at chacha0 testWyhash metric0 1 .Value
          (⟨5, 7, 9⟩ : ChaChaRng) [1]).2 [0]).1 =
      (WorleyNode.value_at chacha0 testWyhash metric0 1 .Value
        (⟨5, 7, 9⟩ : ChaChaRng) [0]).1 :=
  ⟨rfl,
   (C4_worley_purity chacha0 testWyhash metric0 1 .Value [0]).1 ⟨5, 7, 9⟩
     ⟨5, 0, 0⟩ rfl,
   (C4_worley_purity chacha0 testWyhash metric0 1 .Value [0]).2.1 ⟨5, 7, 9⟩,
   (C4_worley_purity chacha0 testWyhash metric0 1 .Value [0]).2.2 ⟨5, 7, 9⟩ [1]⟩

end Zahir
